import Mathlib

/-!
Guild planner of src/App.jsx: identity, quests and progress.

Shallow embedding of the identity normalizer, the login / registration resolver, the quest
and account lifecycle handlers and the progress model of `MHPlanner`, with the properties
proved about them.

JS strings are lists of characters.  Times are the ISO strings returned by
`new Date().toISOString()` and are passed to each handler as the argument `now`.  Every
awaited Firestore call can fail; a handler takes one Bool per awaited call saying whether it
succeeds.
-/

set_option autoImplicit false

/-! ## Identity normalizer -/

abbrev JsString := List Char

/-- Characters matched by the regular expression class \s and removed by String.trim:
the ECMAScript WhiteSpace and LineTerminator code points. -/
def isWhiteSpace (c : Char) : Bool :=
  let n := c.toNat
  n == 0x09 || n == 0x0A || n == 0x0B || n == 0x0C || n == 0x0D || n == 0x20 ||
  n == 0xA0 || n == 0x1680 || (0x2000 ≤ n && n ≤ 0x200A) || n == 0x2028 ||
  n == 0x2029 || n == 0x202F || n == 0x205F || n == 0x3000 || n == 0xFEFF

/-- String.prototype.trim. -/
def trim (s : JsString) : JsString :=
  (s.dropWhile isWhiteSpace).rdropWhile isWhiteSpace

/-- Unicode case data of the JS runtime, a parameter of the embedding: the lower case form
of each character (a list, as a few characters lower to more than one) and the properties
Cased and Case_Ignorable, which the Final_Sigma rule of toLowerCase reads. -/
structure CaseData where
  map : Char → List Char
  cased : Char → Bool
  ignorable : Char → Bool

/-- Lower case form of a single character, out of context.  The three sigmas are fixed by
the standard (capital sigma lowers to the small sigma, the small and the final sigma are
lower case); every other character is looked up in the table. -/
def CaseData.lower (U : CaseData) (c : Char) : List Char :=
  if c = 'Σ' then ['σ']
  else if c = 'σ' then ['σ']
  else if c = 'ς' then ['ς']
  else U.map c

instance : CoeFun CaseData (fun _ => Char → List Char) := ⟨CaseData.lower⟩

/-- The first character that is not case-ignorable exists and is cased. -/
def casedNext (U : CaseData) (cs : List Char) : Bool :=
  match cs.dropWhile U.ignorable with
  | c :: _ => U.cased c
  | [] => false

/-- The Final_Sigma condition of Unicode default case conversion at a position: a cased
letter precedes (case-ignorable characters skipped) and none follows (case-ignorable
characters skipped).  The characters before the position are listed nearest first. -/
def finalSigma (U : CaseData) (before after : List Char) : Bool :=
  casedNext U before && !casedNext U after

/-- Lower case form of a character in its context: a capital sigma in the Final_Sigma
context becomes the final sigma, every other character takes its own lower case form. -/
def lowerAt (U : CaseData) (before : List Char) (c : Char) (after : List Char) : List Char :=
  if c = 'Σ' ∧ finalSigma U before after = true then ['ς'] else U c

/-- Left to right conversion; the first argument holds the characters already passed,
nearest first. -/
def toLowerCaseFrom (U : CaseData) : List Char → JsString → JsString
  | _, [] => []
  | before, c :: cs => lowerAt U before c cs ++ toLowerCaseFrom U (c :: before) cs

/-- String.prototype.toLowerCase: Unicode default case conversion of the whole string,
context sensitive at capital sigma. -/
def toLowerCase (U : CaseData) (s : JsString) : JsString :=
  toLowerCaseFrom U [] s

/-- The call replace(/\s+/g, '-'): a left to right scan in which each maximal run of
white space is replaced by one hyphen.  The flag tells that the previous character was
white space, so the hyphen of the current run is already written. -/
def replaceSpaceRuns : Bool → JsString → JsString
  | _, [] => []
  | inRun, c :: cs =>
    if isWhiteSpace c then
      if inRun then replaceSpaceRuns true cs else '-' :: replaceSpaceRuns true cs
    else c :: replaceSpaceRuns false cs

/-- The arrow function getNormalizedId of HunterLogin:
name.trim().toLowerCase().replace(/\s+/g, '-'). -/
def getNormalizedId (lower : CaseData) (name : JsString) : JsString :=
  replaceSpaceRuns false (toLowerCase lower (trim name))

/-- Case-ignorable characters of basic latin: apostrophe, full stop, colon, circumflex and
grave accent. -/
def asciiIgnorable (c : Char) : Bool :=
  let n := c.toNat
  n == 0x27 || n == 0x2E || n == 0x3A || n == 0x5E || n == 0x60

/-- Case data of the basic latin letters; other characters are kept and have no case. -/
def asciiLower : CaseData where
  map := fun c => [c.toLower]
  cased := fun c => c.isAlpha
  ignorable := asciiIgnorable

/-- The character is a capital letter of the Greek alphabet. -/
def isGreekCapital (c : Char) : Bool :=
  0x391 ≤ c.toNat && c.toNat ≤ 0x3A9 && c.toNat != 0x3A2

/-- Case data of the basic latin and the Greek letters; the soft hyphen, the combining
marks U+0300 to U+036F and the byte order mark are case-ignorable besides the latin
ones. -/
def latinGreek : CaseData where
  map := fun c => if isGreekCapital c then [Char.ofNat (c.toNat + 32)] else [c.toLower]
  cased := fun c => c.isAlpha || isGreekCapital c || (0x3B1 ≤ c.toNat && c.toNat ≤ 0x3C9)
  ignorable := fun c =>
    asciiIgnorable c || c.toNat == 0xAD || (0x300 ≤ c.toNat && c.toNat ≤ 0x36F) ||
    c.toNat == 0xFEFF

/-- What is assumed of the case data: white space has no case, and the lower case form
of another character is neither empty nor contains white space. -/
structure CaseTable (lower : CaseData) : Prop where
  space : ∀ c, isWhiteSpace c = true → lower c = [c]
  letter : ∀ c, isWhiteSpace c = false → lower c ≠ [] ∧ ∀ d ∈ lower c, isWhiteSpace d = false

/-- Specification side: the maximal runs of characters of s that are not white space. -/
def words (s : JsString) : List JsString :=
  (s.splitOnP isWhiteSpace).filter (fun w => !w.isEmpty)

/-- Specification side of the normalizer: the words of the name, each put in lower case
on its own, joined by single hyphens. -/
def normalizeSpec (lower : CaseData) (s : JsString) : JsString :=
  List.intercalate ['-'] ((words s).map (toLowerCase lower))

/-- Every word preceded by one hyphen. -/
def hyphenated (ws : List JsString) : JsString := ws.flatMap (fun w => '-' :: w)

/-- The string does not end in white space. -/
def NoTrail (u : JsString) : Prop := ∀ hl : u ≠ [], isWhiteSpace (u.getLast hl) = false

/-- Character by character image of a string under a table, without context. -/
def eachChar (f : Char → List Char) (s : JsString) : JsString :=
  s.flatMap f

/-- The table keeps white space and maps any other character to a string that is not
empty and holds no white space. -/
structure SpaceSafe (f : Char → List Char) : Prop where
  space : ∀ c, isWhiteSpace c = true → f c = [c]
  letter : ∀ c, isWhiteSpace c = false → f c ≠ [] ∧ ∀ d ∈ f c, isWhiteSpace d = false

/-- The words of the name, each mapped character by character, joined by single hyphens. -/
def wordsJoined (f : Char → List Char) (s : JsString) : JsString :=
  List.intercalate ['-'] ((words s).map (eachChar f))

/-- The scan applied to the character by character image of the trimmed name. -/
def keyEach (f : Char → List Char) (s : JsString) : JsString :=
  replaceSpaceRuns false (eachChar f (trim s))

/-- Expected output of the scan when it resumes inside a word: the rest of the current word,
then every later word preceded by one hyphen. -/
def resumed (f : Char → List Char) (u : JsString) : JsString :=
  match u.splitOnP isWhiteSpace with
  | [] => []
  | w :: rest => eachChar f w ++
      hyphenated ((rest.filter (fun w => !w.isEmpty)).map (eachChar f))

/-- The name a, capital sigma, byte order mark (white space for trim and \s, but
case-ignorable), capital nu, A. -/
def sigmaName : JsString := ['a', 'Σ', Char.ofNat 0xFEFF, Char.ofNat 0x39D, 'A']

/-! ## Data model -/

/-- Profile document at hunters/{id}/profile/data, as written by handleSubmit. -/
structure Profile where
  hunterName : JsString
  avatar : JsString
  createdAt : JsString
deriving DecidableEq, Repr

/-- State of the completedAt field of a quest document: never written, the explicit null
written by toggleTask, or an ISO time string. -/
inductive Stamp where
  | absent
  | null
  | time (t : JsString)
deriving DecidableEq, Repr

/-- Quest document of hunters/{id}/tasks together with its document id.  The field stars is
none when the stored value is not a usable number (missing or NaN, both falsy in JS). -/
structure Quest where
  id : JsString
  name : JsString
  details : JsString
  stars : Option Int
  monsterIcon : JsString
  dueDate : Option JsString
  completed : Bool
  createdAt : JsString
  completedAt : Stamp
  updatedAt : Option JsString
deriving DecidableEq, Repr

/-- Partial field map handed to updateDoc: a field that is none is not written. -/
structure TaskPatch where
  name : Option JsString
  details : Option JsString
  stars : Option (Option Int)
  monsterIcon : Option JsString
  dueDate : Option (Option JsString)
  completed : Option Bool
  createdAt : Option JsString
  completedAt : Option Stamp
  updatedAt : Option JsString
deriving DecidableEq, Repr

/-- Merge of a patch into a stored quest, field by field (Firestore updateDoc). -/
def TaskPatch.apply (p : TaskPatch) (q : Quest) : Quest where
  id := q.id
  name := p.name.getD q.name
  details := p.details.getD q.details
  stars := p.stars.getD q.stars
  monsterIcon := p.monsterIcon.getD q.monsterIcon
  dueDate := p.dueDate.getD q.dueDate
  completed := p.completed.getD q.completed
  createdAt := p.createdAt.getD q.createdAt
  completedAt := p.completedAt.getD q.completedAt
  updatedAt := match p.updatedAt with
    | some t => some t
    | none => q.updatedAt

/-- Two consecutive slashes occur in the string. -/
def hasDoubleSlash : JsString → Bool
  | [] => false
  | [_] => false
  | a :: b :: cs => (a == '/' && b == '/') || hasDoubleSlash (b :: cs)

/-- Segments of a path argument: the parts between slashes that are not empty. -/
def pathSegments (id : JsString) : List JsString :=
  (id.splitOn '/').filter (fun w => !w.isEmpty)

/-- The Firestore call doc(db, 'hunters', id, 'profile', 'data') returns a reference: the
SDK rejects an argument holding two consecutive slashes, splits the arguments at slashes,
drops empty segments and throws unless the path has an even number of segments, which with
the three fixed segments asks for an odd number of segments in id.  An id without slash is
valid when it is not empty; a/b (five segments in all) is not.  The store below is keyed
by the id as given: that the SDK reads an id with a leading or trailing slash as the id
without it is not represented. -/
def validDocId (id : JsString) : Bool :=
  !hasDoubleSlash id && (pathSegments id).length % 2 == 1

/-- Backing document store: the profile records and the quest collections by hunter id. -/
structure Store where
  profileAt : JsString → Option Profile
  tasks : JsString → List Quest

/-- Read of hunters/{id}/profile/data: a record exists only under an id for which a
document reference exists. -/
def Store.profile (st : Store) (id : JsString) : Option Profile :=
  if validDocId id then st.profileAt id else none

/-- The store holding no document. -/
def Store.empty : Store where
  profileAt := fun _ => none
  tasks := fun _ => []

/-- Firestore setDoc on hunters/{id}/profile/data. -/
def Store.setProfile (st : Store) (id : JsString) (p : Profile) : Store where
  profileAt := fun k => if k = id then some p else st.profileAt k
  tasks := st.tasks

/-- Firestore addDoc on hunters/{id}/tasks. -/
def Store.addTask (st : Store) (id : JsString) (q : Quest) : Store where
  profileAt := st.profileAt
  tasks := fun k => if k = id then q :: st.tasks id else st.tasks k

/-- Firestore updateDoc on hunters/{id}/tasks/{tid}; it fails (none) when the document is
missing. -/
def Store.updateTask (st : Store) (id tid : JsString) (p : TaskPatch) : Option Store :=
  if (st.tasks id).any (fun q => q.id == tid) then
    some {
      profileAt := st.profileAt
      tasks := fun k =>
        if k = id then (st.tasks id).map (fun q => if q.id = tid then p.apply q else q)
        else st.tasks k }
  else none

/-- Firestore deleteDoc on hunters/{id}/tasks/{tid}. -/
def Store.deleteTask (st : Store) (id tid : JsString) : Store where
  profileAt := st.profileAt
  tasks := fun k => if k = id then (st.tasks id).filter (fun q => q.id != tid) else st.tasks k

/-- Committed write batch deleting the listed quest documents of one hunter and, when
withProfile is set, the profile record. -/
def Store.commitDeletes (st : Store) (id : JsString) (tids : List JsString)
    (withProfile : Bool) : Store where
  profileAt := fun k => if withProfile && k = id then none else st.profileAt k
  tasks := fun k =>
    if k = id then (st.tasks id).filter (fun q => !tids.contains q.id) else st.tasks k

/-- Contents of the quest form; stars holds parseInt(formTask.stars), none standing for NaN. -/
structure FormTask where
  name : JsString
  details : JsString
  stars : Option Int
  monsterIcon : JsString
  dueDate : JsString
deriving DecidableEq, Repr

/-- Initial and reset value of formTask. -/
def FormTask.blank : FormTask where
  name := []
  details := []
  stars := some 1
  monsterIcon := "Great_Jagras_Icon.webp".toList
  dueDate := []

/-- Backing store, browser session storage (key mh_hunter_id) and the React state of
MHPlanner. -/
structure App where
  store : Store
  session : Option JsString
  currentHunterId : Option JsString
  profile : Option Profile
  tasks : List Quest
  showAddForm : Bool
  showSettings : Bool
  editModeTask : Option JsString
  formTask : FormTask

/-- JS truthiness of a value that is null or a string. -/
def truthy : Option JsString → Bool
  | some (_ :: _) => true
  | _ => false

/-- Freshly mounted application over a given store and session storage: the mount effect
copies a truthy stored id into currentHunterId. -/
def App.mount (store : Store) (session : Option JsString) : App where
  store := store
  session := session
  currentHunterId := if truthy session then session else none
  profile := none
  tasks := []
  showAddForm := false
  showSettings := false
  editModeTask := none
  formTask := FormTask.blank

/-- First visit: empty store, nothing in session storage. -/
def App.init : App := App.mount Store.empty none

/-! ## Progress model -/

/-- Rank titles (getRankTitle). -/
def getRankTitle (rank : Int) : String :=
  if rank < 2 then "Novato"
  else if rank < 5 then "Cazador de Rango Bajo"
  else if rank < 10 then "Cazador de Rango Alto"
  else if rank < 20 then "Cazador Clase G"
  else if rank < 50 then "Maestro Cazador"
  else "Estrella Zafiro"

/-- Value of the useMemo block stats. -/
structure Stats where
  rank : Int
  progress : Int
  totalPoints : Int
  title : String
deriving DecidableEq, Repr

/-- The JS expression t.stars || 1. -/
def starsOrOne : Option Int → Int
  | none => 1
  | some n => if n = 0 then 1 else n

/-- One iteration of the forEach body in stats. -/
def addPoints (pts : Int) (t : Quest) : Int :=
  if t.completed then pts + starsOrOne t.stars * 10 else pts

/-- The memo stats of MHPlanner: points are summed over the completed quests, rank is
Math.floor(pts / 100) + 1 and progress is the JS remainder pts % 100 (truncated, the sign
of pts).  The code computes in IEEE doubles; the integers used here agree with it as long
as the difficulties are integers and the sums stay below 2^53.  That is the case for the
difficulties the application stores (1 to 9, at most 90 points a quest) and any JS array,
which holds fewer than 2^32 quests; the properties below are stated on that domain. -/
def stats (tasks : List Quest) : Stats :=
  let pts := tasks.foldl addPoints 0
  let rank := Int.fdiv pts 100 + 1
  { rank := rank, progress := Int.tmod pts 100, totalPoints := pts, title := getRankTitle rank }

/-! ## Login and registration -/

/-- The handler handleSubmit of HunterLogin.  A blank name returns at once.  The reference
profileRef is built by doc() before the try block: for an id that is no document path the
call throws and nothing further runs.  A failing getDoc or setDoc lands in the catch block
and changes nothing; otherwise the profile is created when absent, the key is written to
session storage and passed to onLoginSuccess, which is setCurrentHunterId.  The flag
isChecking of the form is not represented. -/
def handleSubmit (lower : CaseData) (hunterName selectedIcon now : JsString)
    (readOk writeOk : Bool) (s : App) : App :=
  if trim hunterName = [] then s
  else
    let normalizedId := getNormalizedId lower hunterName
    if !validDocId normalizedId then s
    else if !readOk then s
    else
      match s.store.profile normalizedId with
      | some _ =>
        { s with session := some normalizedId, currentHunterId := some normalizedId }
      | none =>
        if !writeOk then s
        else
          { s with
            store := s.store.setProfile normalizedId
              { hunterName := trim hunterName, avatar := selectedIcon, createdAt := now }
            session := some normalizedId
            currentHunterId := some normalizedId }

/-! ## Account lifecycle -/

/-- The handler handleLogout. -/
def handleLogout (s : App) : App :=
  { s with session := none, currentHunterId := none, profile := none, tasks := [],
           showSettings := false }

/-- The handler handleDeleteAccount: one write batch deleting the quest documents listed in
the local state tasks and the profile record; handleLogout runs only after the commit
succeeded. -/
def handleDeleteAccount (commitOk : Bool) (s : App) : App :=
  if !truthy s.currentHunterId then s
  else
    match s.currentHunterId with
    | none => s
    | some id =>
      if commitOk then
        handleLogout { s with store := s.store.commitDeletes id (s.tasks.map Quest.id) true }
      else s

/-- The handler handleResetProgress: one write batch deleting the quest documents listed
in the local state tasks. -/
def handleResetProgress (commitOk : Bool) (s : App) : App :=
  if !truthy s.currentHunterId then s
  else
    match s.currentHunterId with
    | none => s
    | some id =>
      if commitOk then
        { s with store := s.store.commitDeletes id (s.tasks.map Quest.id) false,
                 showSettings := false }
      else s

/-! ## Quest lifecycle -/

/-- Field map of the updateDoc call of handleSaveTask in edit mode: taskData and
updatedAt. -/
def editPatch (f : FormTask) (now : JsString) : TaskPatch where
  name := some f.name
  details := some f.details
  stars := some f.stars
  monsterIcon := some f.monsterIcon
  dueDate := some (if f.dueDate = [] then none else some f.dueDate)
  completed := none
  createdAt := none
  completedAt := none
  updatedAt := some now

/-- Document added by handleSaveTask outside edit mode (taskData, completed: false,
createdAt), under the id chosen by the store. -/
def newQuest (f : FormTask) (now newId : JsString) : Quest where
  id := newId
  name := f.name
  details := f.details
  stars := f.stars
  monsterIcon := f.monsterIcon
  dueDate := if f.dueDate = [] then none else some f.dueDate
  completed := false
  createdAt := now
  completedAt := Stamp.absent
  updatedAt := none

/-- The handler handleSaveTask; newId is the document id that addDoc assigns. -/
def handleSaveTask (now newId : JsString) (ok : Bool) (s : App) : App :=
  if s.formTask.name = [] || !truthy s.currentHunterId then s
  else
    match s.currentHunterId with
    | none => s
    | some id =>
      if truthy s.editModeTask then
        match s.editModeTask with
        | none => s
        | some tid =>
          if ok then
            match s.store.updateTask id tid (editPatch s.formTask now) with
            | some st =>
              { s with store := st, editModeTask := none, formTask := FormTask.blank,
                       showAddForm := false }
            | none => s
          else s
      else
        if ok then
          { s with store := s.store.addTask id (newQuest s.formTask now newId),
                   formTask := FormTask.blank, showAddForm := false }
        else s

/-- Field map of the updateDoc call of toggleTask. -/
def togglePatch (task : Quest) (now : JsString) : TaskPatch :=
  let isCompleting := !task.completed
  { name := none, details := none, stars := none, monsterIcon := none, dueDate := none,
    completed := some isCompleting,
    createdAt := none,
    completedAt := some (if isCompleting then Stamp.time now else Stamp.null),
    updatedAt := none }

/-- The handler toggleTask; without a hunter id no document reference can be built and
nothing is written. -/
def toggleTask (task : Quest) (now : JsString) (ok : Bool) (s : App) : App :=
  match s.currentHunterId with
  | none => s
  | some id =>
    if ok then
      match s.store.updateTask id task.id (togglePatch task now) with
      | some st => { s with store := st }
      | none => s
    else s

/-- The handler startEditTask (the scroll is not represented). -/
def startEditTask (task : Quest) (s : App) : App :=
  { s with
    editModeTask := some task.id
    formTask :=
      { name := task.name, details := task.details, stars := task.stars,
        monsterIcon :=
          if task.monsterIcon = [] then "Great_Jagras_Icon.webp".toList else task.monsterIcon,
        dueDate := task.dueDate.getD [] }
    showAddForm := true }

/-- The handler deleteTask; confirmed is the answer to window.confirm. -/
def deleteTask (tid : JsString) (confirmed ok : Bool) (s : App) : App :=
  if confirmed then
    match s.currentHunterId with
    | none => s
    | some id => if ok then { s with store := s.store.deleteTask id tid } else s
  else s

/-- The handler handleUpdateProfile as the settings dialog calls it, with the field map
{ avatar }: updateDoc on the profile record, which fails when the record is missing. -/
def handleUpdateProfile (avatar : JsString) (ok : Bool) (s : App) : App :=
  if !truthy s.currentHunterId then s
  else
    match s.currentHunterId with
    | none => s
    | some id =>
      if ok then
        match s.store.profile id with
        | some p => { s with store := s.store.setProfile id { p with avatar := avatar } }
        | none => s
      else s

/-- The add button of the toolbar: leaves edit mode, clears the form, flips the form panel. -/
def toggleAddForm (s : App) : App :=
  { s with editModeTask := none, formTask := FormTask.blank, showAddForm := !s.showAddForm }

/-- Delivery of a profile snapshot by the subscription opened for currentHunterId. -/
def profileSnapshot (s : App) : App :=
  if truthy s.currentHunterId then
    match s.currentHunterId with
    | none => s
    | some id => { s with profile := s.store.profile id }
  else s

/-- Delivery of a quest collection snapshot by the subscription opened for currentHunterId
(the ordering by createdAt of the delivered list is not represented). -/
def tasksSnapshot (s : App) : App :=
  if truthy s.currentHunterId then
    match s.currentHunterId with
    | none => s
    | some id => { s with tasks := s.store.tasks id }
  else s

/-! ## The application as a transition system -/

/-- User actions and store notifications; the Bool arguments say whether the awaited store
calls of the handler succeed.  The login form is shown only while no hunter id is set; the
other enabling conditions of the buttons are not represented, so the system allows at least
the runs of the page. -/
inductive Event where
  | submit (hunterName selectedIcon now : JsString) (readOk writeOk : Bool)
  | logout
  | deleteAccount (commitOk : Bool)
  | resetProgress (commitOk : Bool)
  | updateProfile (avatar : JsString) (ok : Bool)
  | setFormTask (f : FormTask)
  | toggleAddForm
  | startEditTask (task : Quest)
  | saveTask (now newId : JsString) (ok : Bool)
  | toggleTask (task : Quest) (now : JsString) (ok : Bool)
  | deleteTask (tid : JsString) (confirmed ok : Bool)
  | profileSnapshot
  | tasksSnapshot
  | reload

/-- Effect of one event. -/
def step (lower : CaseData) (s : App) : Event → App
  | Event.submit n i t r w =>
    if truthy s.currentHunterId then s else handleSubmit lower n i t r w s
  | Event.logout => handleLogout s
  | Event.deleteAccount c => handleDeleteAccount c s
  | Event.resetProgress c => handleResetProgress c s
  | Event.updateProfile a ok => handleUpdateProfile a ok s
  | Event.setFormTask f => { s with formTask := f }
  | Event.toggleAddForm => toggleAddForm s
  | Event.startEditTask task => startEditTask task s
  | Event.saveTask t i ok => handleSaveTask t i ok s
  | Event.toggleTask task t ok => toggleTask task t ok s
  | Event.deleteTask tid c ok => deleteTask tid c ok s
  | Event.profileSnapshot => profileSnapshot s
  | Event.tasksSnapshot => tasksSnapshot s
  | Event.reload => App.mount s.store s.session

/-- Effect of a sequence of events. -/
def run (lower : CaseData) (s : App) (es : List Event) : App :=
  es.foldl (step lower) s

/-- One toggle seen from the quest: the patch computed from the quest merged into it. -/
def toggled (q : Quest) (now : JsString) : Quest :=
  (togglePatch q now).apply q

/-- The field holds a time stamp. -/
def Stamp.isSet : Stamp → Bool
  | Stamp.time _ => true
  | _ => false

/-- The field holds no time stamp. -/
def Stamp.isNull : Stamp → Bool
  | Stamp.time _ => false
  | _ => true

/-- Completion invariant of a quest. -/
def Quest.consistent (q : Quest) : Prop :=
  (q.completed = true ↔ q.completedAt.isSet = true) ∧
  (q.completed = false ↔ q.completedAt.isNull = true)

/-- The local quest view lists every quest stored under the active account. -/
def App.viewCurrent (s : App) : Prop :=
  ∀ id, s.currentHunterId = some id → ∀ q ∈ s.store.tasks id, q.id ∈ s.tasks.map Quest.id

/-! ## Specification side of the progress model, sample data -/

/-- Difficulty of a quest as the specification reads it: the stored number of stars. -/
def difficulty (q : Quest) : Int := q.stars.getD 0

/-- Sum of the difficulties of the completed quests of a collection. -/
def completedDifficulty (tasks : List Quest) : Int :=
  ((tasks.filter (fun q => q.completed)).map difficulty).sum

/-- The difficulty of the quest is an integer from 1 to 9. -/
def starsInRange (q : Quest) : Prop := ∃ n : Int, q.stars = some n ∧ 1 ≤ n ∧ n ≤ 9

/-- Sample quest with the given id, difficulty and completion state. -/
def sampleQuest (id : String) (stars : Int) (completed : Bool) : Quest where
  id := id.toList
  name := "Hunt".toList
  details := []
  stars := some stars
  monsterIcon := "Rathalos_Icon.webp".toList
  dueDate := none
  completed := completed
  createdAt := "2024-01-01T00:00:00.000Z".toList
  completedAt := if completed then Stamp.time "2024-01-02T00:00:00.000Z".toList else Stamp.null
  updatedAt := none

/-- Every quest stored under every account satisfies the completion invariant. -/
def Store.allConsistent (st : Store) : Prop :=
  ∀ id, ∀ q ∈ st.tasks id, q.consistent

/-- The quest as toggleTask leaves it when the snapshot passed to it has the given completed
flag: only completed and completedAt are replaced. -/
def Quest.withToggle (q : Quest) (wasCompleted : Bool) (now : JsString) : Quest :=
  { q with
    completed := !wasCompleted
    completedAt := if wasCompleted then Stamp.null else Stamp.time now }

/-- Sample state: the account ash-ketchum is logged in and holds two quests, both listed in
the local view. -/
def sampleApp : App where
  store :=
    { profileAt := fun k =>
        if k = "ash-ketchum".toList then
          some { hunterName := "Ash Ketchum".toList, avatar := "Rathalos_Icon.webp".toList,
                 createdAt := "2024-01-01T00:00:00.000Z".toList }
        else none
      tasks := fun k =>
        if k = "ash-ketchum".toList then [sampleQuest "q1" 3 false, sampleQuest "q2" 5 true]
        else [] }
  session := some "ash-ketchum".toList
  currentHunterId := some "ash-ketchum".toList
  profile := some { hunterName := "Ash Ketchum".toList, avatar := "Rathalos_Icon.webp".toList,
                    createdAt := "2024-01-01T00:00:00.000Z".toList }
  tasks := [sampleQuest "q1" 3 false, sampleQuest "q2" 5 true]
  showAddForm := false
  showSettings := false
  editModeTask := none
  formTask := FormTask.blank

def sampleForm : FormTask where
  name := "Hunt Rathalos".toList
  details := "Ancient Forest".toList
  stars := some 5
  monsterIcon := "Rathalos_Icon.webp".toList
  dueDate := []

/-- Sample run from the empty application: register, fill the form, create a quest, receive
the snapshot, complete the quest. -/
def sampleEvents : List Event :=
  [Event.submit "Ash Ketchum".toList "Rathalos_Icon.webp".toList
      "2024-01-01T00:00:00.000Z".toList true true,
   Event.setFormTask sampleForm,
   Event.saveTask "2024-02-01T00:00:00.000Z".toList "q1".toList true,
   Event.tasksSnapshot,
   Event.toggleTask (newQuest sampleForm "2024-02-01T00:00:00.000Z".toList "q1".toList)
      "2024-03-01T10:00:00.000Z".toList true]

def sampleCompleted : Quest :=
  { newQuest sampleForm "2024-02-01T00:00:00.000Z".toList "q1".toList with
    completed := true
    completedAt := Stamp.time "2024-03-01T10:00:00.000Z".toList }

/-! ## Specification side of the later properties -/

/-- The quest as the edit branch of handleSaveTask leaves it: the five form fields and
updatedAt are replaced, every other field is kept. -/
def Quest.withEdit (q : Quest) (f : FormTask) (now : JsString) : Quest :=
  { q with
    name := f.name
    details := f.details
    stars := f.stars
    monsterIcon := f.monsterIcon
    dueDate := if f.dueDate = [] then none else some f.dueDate
    updatedAt := some now }

/-- Sample state: the quest q1 of the sample account is being edited with the sample form. -/
def sampleEditing : App :=
  { sampleApp with editModeTask := some "q1".toList, formTask := sampleForm, showAddForm := true }

/-- Sample state: the sample form is filled in to create a quest. -/
def sampleCreating : App :=
  { sampleApp with formTask := sampleForm, showAddForm := true }

/-- No completed quest of the collection has a negative difficulty. -/
def noNegativeStars (Q : List Quest) : Prop :=
  ∀ q ∈ Q, q.completed = true → ∀ n : Int, q.stars = some n → 0 ≤ n

/-- Sample completed quest whose stars field is missing. -/
def sampleBare : Quest :=
  { sampleQuest "bare" 1 true with stars := none }

/-- What idempotence of the normalizer needs of the case data: every character of a
lower case form is its own lower case form, and so is the hyphen. -/
structure CaseStable (lower : CaseData) : Prop where
  fixed : ∀ c, ∀ d ∈ lower c, lower d = [d]
  hyphen : lower '-' = ['-']

/-- Raw names that differ only in letter case (character by character the same lower case
form), in leading or trailing white space, or in the kind or the length of their white
space runs; closed under symmetry and chaining. -/
inductive Variant (lower : CaseData) : JsString → JsString → Prop where
  | caseFold (s t : JsString) :
      List.Forall₂ (fun c d => lower c = lower d) s t → Variant lower s t
  | leading (c : Char) (s : JsString) :
      isWhiteSpace c = true → Variant lower (c :: s) s
  | trailing (c : Char) (s : JsString) :
      isWhiteSpace c = true → Variant lower (s ++ [c]) s
  | kind (a b : JsString) (c d : Char) :
      isWhiteSpace c = true → isWhiteSpace d = true →
      Variant lower (a ++ c :: b) (a ++ d :: b)
  | longer (a b : JsString) (c d : Char) :
      isWhiteSpace c = true → isWhiteSpace d = true →
      Variant lower (a ++ c :: b) (a ++ c :: d :: b)
  | symm (s t : JsString) : Variant lower s t → Variant lower t s
  | trans (s t u : JsString) : Variant lower s t → Variant lower t u → Variant lower s u

/-- The difficulty is one the application can hold: an integer from 1 to 9 as the form
writes it, or the missing or zero value that stats replaces by 1. -/
def starsStored (q : Quest) : Prop :=
  q.stars = none ∨ ∃ n : Int, q.stars = some n ∧ 0 ≤ n ∧ n ≤ 9

/-- The names differing only in the case of their letters on which the keys differ:
capitals with a closing capital sigma, and small letters with a small sigma in its
place. -/
def nikosCapitals : JsString := "ΝΙΚΟΣ".toList

/-- Small letters, the last one the small (not the final) sigma. -/
def nikosSmall : JsString := "νικοσ".toList

/-! ## Normalizer: the scan against its specification -/

theorem intercalate_cons_hyphen (w : JsString) (ws : List JsString) :
    List.intercalate ['-'] (w :: ws) = w ++ hyphenated ws := by
  induction ws generalizing w with
  | nil => simp [List.intercalate, hyphenated]
  | cons v vs ih =>
    have := ih v
    simp only [List.intercalate, List.intersperse, hyphenated, List.flatMap_cons] at this ⊢
    simp [List.flatten, this]

theorem hyphen_intercalate (ws : List JsString) (h : ws ≠ []) :
    '-' :: List.intercalate ['-'] ws = hyphenated ws := by
  cases ws with
  | nil => exact absurd rfl h
  | cons w vs => rw [intercalate_cons_hyphen]; simp [hyphenated]

theorem replaceSpaceRuns_letters (l r : JsString) (h : ∀ d ∈ l, isWhiteSpace d = false) :
    replaceSpaceRuns false (l ++ r) = l ++ replaceSpaceRuns false r := by
  induction l with
  | nil => rfl
  | cons d l ih =>
    have hd : isWhiteSpace d = false := h d (List.mem_cons_self _ _)
    simp [replaceSpaceRuns, hd, ih (fun x hx => h x (List.mem_cons_of_mem _ hx))]

theorem replaceSpaceRuns_word (b : Bool) (l r : JsString) (hne : l ≠ [])
    (h : ∀ d ∈ l, isWhiteSpace d = false) :
    replaceSpaceRuns b (l ++ r) = l ++ replaceSpaceRuns false r := by
  cases l with
  | nil => exact absurd rfl hne
  | cons d l =>
    have hd : isWhiteSpace d = false := h d (List.mem_cons_self _ _)
    simp [replaceSpaceRuns, hd,
      replaceSpaceRuns_letters l r (fun x hx => h x (List.mem_cons_of_mem _ hx))]

theorem words_cons_space (c : Char) (cs : JsString) (h : isWhiteSpace c = true) :
    words (c :: cs) = words cs := by
  simp [words, List.splitOnP_cons, h]

theorem splitOnP_cons_letter (c : Char) (cs : JsString) (h : isWhiteSpace c = false) :
    ∃ w rest, cs.splitOnP isWhiteSpace = w :: rest ∧
      (c :: cs).splitOnP isWhiteSpace = (c :: w) :: rest := by
  cases hs : cs.splitOnP isWhiteSpace with
  | nil => exact absurd hs (List.splitOnP_ne_nil _ _)
  | cons w rest => exact ⟨w, rest, rfl, by simp [List.splitOnP_cons, h, hs, List.modifyHead]⟩

theorem words_ne_nil (cs : JsString) (h : ∃ x ∈ cs, isWhiteSpace x = false) : words cs ≠ [] := by
  induction cs with
  | nil => simp at h
  | cons c cs ih =>
    cases hc : isWhiteSpace c with
    | true =>
      rw [words_cons_space c cs hc]
      apply ih
      obtain ⟨x, hx, hxw⟩ := h
      rcases List.mem_cons.mp hx with rfl | hx
      · simp [hc] at hxw
      · exact ⟨x, hx, hxw⟩
    | false =>
      obtain ⟨w, rest, _, h2⟩ := splitOnP_cons_letter c cs hc
      simp [words, h2]


theorem NoTrail.tail {c : Char} {cs : JsString} (h : NoTrail (c :: cs)) : NoTrail cs := by
  intro hl
  have := h (List.cons_ne_nil _ _)
  rwa [List.getLast_cons hl] at this

theorem NoTrail.exists_letter {c : Char} {cs : JsString} (h : NoTrail (c :: cs))
    (hc : isWhiteSpace c = true) : ∃ x ∈ cs, isWhiteSpace x = false := by
  cases cs with
  | nil =>
    have := h (List.cons_ne_nil _ _)
    simp [hc] at this
  | cons d ds =>
    exact ⟨_, List.getLast_mem (List.cons_ne_nil d ds), h.tail (List.cons_ne_nil _ _)⟩

theorem replaceSpaceRuns_spec (f : Char → List Char) (hl : SpaceSafe f) (u : JsString)
    (hu : NoTrail u) :
    replaceSpaceRuns true (eachChar f u) = wordsJoined f u ∧
    replaceSpaceRuns false (eachChar f u) = resumed f u := by
  induction u with
  | nil => simp [eachChar, replaceSpaceRuns, wordsJoined, words, resumed, hyphenated,
      List.intercalate]
  | cons c cs ih =>
    obtain ⟨iha, ihb⟩ := ih hu.tail
    cases hc : isWhiteSpace c with
    | true =>
      have hlow : eachChar f (c :: cs) = c :: eachChar f cs := by
        simp [eachChar, hl.space c hc]
      have hw : words cs ≠ [] := words_ne_nil cs (hu.exists_letter hc)
      constructor
      · rw [hlow]
        simp only [replaceSpaceRuns, hc, if_true]
        rw [iha, wordsJoined, wordsJoined, words_cons_space c cs hc]
      · rw [hlow]
        simp only [replaceSpaceRuns, hc, if_true]
        rw [iha, wordsJoined, hyphen_intercalate _ (by simpa using hw)]
        simp [resumed, List.splitOnP_cons, hc, eachChar, words]
    | false =>
      obtain ⟨w, rest, h1, h2⟩ := splitOnP_cons_letter c cs hc
      obtain ⟨hne, hlet⟩ := hl.letter c hc
      have hlow : eachChar f (c :: cs) = f c ++ eachChar f cs := by
        simp [eachChar]
      have key : ∀ b, replaceSpaceRuns b (eachChar f (c :: cs)) =
          f c ++ resumed f cs := by
        intro b
        rw [hlow, replaceSpaceRuns_word b _ _ hne hlet, ihb]
      constructor
      · rw [key, wordsJoined, words, h2]
        simp only [List.filter, List.isEmpty_cons, Bool.not_false, List.map_cons]
        rw [intercalate_cons_hyphen]
        simp [resumed, h1, eachChar]
      · rw [key]
        simp [resumed, h1, h2, eachChar]

theorem dropWhile_head_letter (s : JsString) (c : Char) (r : JsString)
    (h : s.dropWhile isWhiteSpace = c :: r) : isWhiteSpace c = false := by
  induction s with
  | nil => simp at h
  | cons a s ih =>
    cases ha : isWhiteSpace a with
    | true => rw [List.dropWhile_cons_of_pos ha] at h; exact ih h
    | false =>
      rw [List.dropWhile_cons_of_neg (by simp [ha])] at h
      injection h with h1 _
      rw [← h1]; exact ha

theorem words_dropWhile (s : JsString) : words (s.dropWhile isWhiteSpace) = words s := by
  induction s with
  | nil => rfl
  | cons a s ih =>
    cases ha : isWhiteSpace a with
    | true => rw [List.dropWhile_cons_of_pos ha, ih, words_cons_space a s ha]
    | false => rw [List.dropWhile_cons_of_neg (by simp [ha])]

theorem splitOnP_concat_space (v : JsString) (x : Char) (hx : isWhiteSpace x = true) :
    (v ++ [x]).splitOnP isWhiteSpace = v.splitOnP isWhiteSpace ++ [[]] := by
  induction v with
  | nil => simp [List.splitOnP_cons, hx]
  | cons c v ih =>
    cases hc : isWhiteSpace c with
    | true => simp [List.splitOnP_cons, hc, ih]
    | false =>
      obtain ⟨w, rest, h1, h2⟩ := splitOnP_cons_letter c v hc
      rw [h2]
      simp [List.splitOnP_cons, hc, ih, h1, List.modifyHead]

theorem words_rdropWhile (v : JsString) : words (v.rdropWhile isWhiteSpace) = words v := by
  induction v using List.reverseRecOn with
  | nil => simp
  | append_singleton v x ih =>
    cases hx : isWhiteSpace x with
    | true =>
      rw [List.rdropWhile_concat_pos _ _ _ hx, ih]
      simp [words, splitOnP_concat_space v x hx]
    | false => rw [List.rdropWhile_concat_neg _ _ _ (by simp [hx])]

theorem words_trim (s : JsString) : words (trim s) = words s := by
  rw [trim, words_rdropWhile, words_dropWhile]

theorem noTrail_trim (s : JsString) : NoTrail (trim s) := by
  intro hl
  have := List.rdropWhile_last_not isWhiteSpace (s.dropWhile isWhiteSpace) hl
  simpa [trim] using this

theorem trim_head_letter (s : JsString) (c : Char) (r : JsString) (h : trim s = c :: r) :
    isWhiteSpace c = false := by
  have hp : trim s <+: s.dropWhile isWhiteSpace := List.rdropWhile_prefix _ _
  obtain ⟨t, ht⟩ := hp
  rw [h] at ht
  exact dropWhile_head_letter s c (r ++ t) (by simpa using ht.symm)


theorem keyEach_words (f : Char → List Char) (hf : SpaceSafe f) (s : JsString) :
    keyEach f s = wordsJoined f s := by
  have hspec := replaceSpaceRuns_spec f hf (trim s) (noTrail_trim s)
  have hsame : replaceSpaceRuns false (eachChar f (trim s)) =
      replaceSpaceRuns true (eachChar f (trim s)) := by
    cases ht : trim s with
    | nil => rfl
    | cons c r =>
      obtain ⟨hne, hlet⟩ := hf.letter c (trim_head_letter s c r ht)
      have hlow : eachChar f (c :: r) = f c ++ eachChar f r := by
        simp [eachChar]
      rw [hlow, replaceSpaceRuns_word false _ _ hne hlet, replaceSpaceRuns_word true _ _ hne hlet]
  rw [keyEach, hsame, hspec.1, wordsJoined, wordsJoined, words_trim]

theorem spaceSafe_id : SpaceSafe (fun c => [c]) := by
  constructor
  · intro c _
    rfl
  · intro c hc
    refine ⟨by simp, ?_⟩
    intro d hd
    simp only [List.mem_singleton] at hd
    rw [hd]
    exact hc

theorem eachChar_id (s : JsString) : eachChar (fun c => [c]) s = s := by
  induction s with
  | nil => rfl
  | cons c cs ih =>
    simp only [eachChar, List.flatMap_cons] at ih ⊢
    rw [ih]
    rfl

theorem scan_words (x : JsString) (hx : NoTrail x) :
    replaceSpaceRuns true x = List.intercalate ['-'] (words x) := by
  have h := (replaceSpaceRuns_spec (fun c => [c]) spaceSafe_id x hx).1
  rw [eachChar_id] at h
  rw [h, wordsJoined]
  congr 1
  exact List.map_id'' (fun w => eachChar_id w) _

theorem CaseTable.spaceSafe {U : CaseData} (hl : CaseTable U) : SpaceSafe U.lower :=
  ⟨hl.space, hl.letter⟩

theorem lowerAt_of_ne (U : CaseData) (before after : List Char) (c : Char) (h : c ≠ 'Σ') :
    lowerAt U before c after = U c := by
  simp [lowerAt, h]

theorem lowerAt_space (U : CaseData) (hl : CaseTable U) (before after : List Char) (c : Char)
    (hc : isWhiteSpace c = true) : lowerAt U before c after = [c] := by
  have hne : c ≠ 'Σ' := by
    intro h
    rw [h] at hc
    exact absurd hc (by decide)
  rw [lowerAt_of_ne U before after c hne]
  exact hl.space c hc

theorem lowerAt_letter (U : CaseData) (hl : CaseTable U) (before after : List Char) (c : Char)
    (hc : isWhiteSpace c = false) :
    lowerAt U before c after ≠ [] ∧ ∀ d ∈ lowerAt U before c after, isWhiteSpace d = false := by
  unfold lowerAt
  split
  · refine ⟨by simp, ?_⟩
    intro d hd
    simp only [List.mem_singleton] at hd
    rw [hd]
    decide
  · exact hl.letter c hc

theorem toLowerCaseFrom_sigmaFree (U : CaseData) (before s : List Char) (h : 'Σ' ∉ s) :
    toLowerCaseFrom U before s = eachChar U.lower s := by
  induction s generalizing before with
  | nil => rfl
  | cons c cs ih =>
    have hc : c ≠ 'Σ' := fun e => h (e ▸ List.mem_cons_self _ _)
    have hcs : 'Σ' ∉ cs := fun e => h (List.mem_cons_of_mem _ e)
    simp only [toLowerCaseFrom, eachChar, List.flatMap_cons]
    rw [lowerAt_of_ne U before cs c hc, ih (c :: before) hcs]
    rfl

theorem toLowerCase_sigmaFree (U : CaseData) (s : JsString) (h : 'Σ' ∉ s) :
    toLowerCase U s = eachChar U.lower s :=
  toLowerCaseFrom_sigmaFree U [] s h

theorem toLowerCaseFrom_ne_nil (U : CaseData) (hl : CaseTable U) (before s : List Char)
    (hs : s ≠ []) : toLowerCaseFrom U before s ≠ [] := by
  cases s with
  | nil => exact absurd rfl hs
  | cons c cs =>
    simp only [toLowerCaseFrom, ne_eq, List.append_eq_nil, not_and]
    intro h
    cases hc : isWhiteSpace c with
    | true => rw [lowerAt_space U hl before cs c hc] at h; exact absurd h (by simp)
    | false => exact absurd h (lowerAt_letter U hl before cs c hc).1

theorem toLowerCaseFrom_noTrail (U : CaseData) (hl : CaseTable U) (before s : List Char)
    (hs : NoTrail s) : NoTrail (toLowerCaseFrom U before s) := by
  induction s generalizing before with
  | nil => intro h; exact absurd rfl h
  | cons c cs ih =>
    intro hne
    by_cases hcs : cs = []
    · subst hcs
      have hc : isWhiteSpace c = false := by simpa using hs (List.cons_ne_nil _ _)
      have hp := lowerAt_letter U hl before [] c hc
      have hall : ∀ d ∈ toLowerCaseFrom U before [c], isWhiteSpace d = false := by
        intro d hd
        simp only [toLowerCaseFrom, List.append_nil] at hd
        exact hp.2 d hd
      exact hall _ (List.getLast_mem hne)
    · have hrest := toLowerCaseFrom_ne_nil U hl (c :: before) cs hcs
      have hlast : (toLowerCaseFrom U before (c :: cs)).getLast hne =
          (toLowerCaseFrom U (c :: before) cs).getLast hrest := by
        simp only [toLowerCaseFrom]
        exact List.getLast_append_of_ne_nil _
      rw [hlast]
      exact ih (c :: before) hs.tail hrest

theorem dropWhile_subset_mem (s : JsString) (d : Char) (h : d ∈ trim s) : d ∈ s := by
  have h1 : trim s <+: s.dropWhile isWhiteSpace := List.rdropWhile_prefix _ _
  exact List.dropWhile_subset _ (h1.subset h)

theorem normalizedId_lowered (U : CaseData) (hl : CaseTable U) (s : JsString) :
    getNormalizedId U s = List.intercalate ['-'] (words (toLowerCase U (trim s))) := by
  unfold getNormalizedId
  have hx : NoTrail (toLowerCase U (trim s)) :=
    toLowerCaseFrom_noTrail U hl [] (trim s) (noTrail_trim s)
  rw [← scan_words _ hx]
  cases ht : trim s with
  | nil => rfl
  | cons c r =>
    obtain ⟨hne, hlet⟩ := lowerAt_letter U hl [] r c (trim_head_letter s c r ht)
    simp only [toLowerCase, toLowerCaseFrom]
    rw [replaceSpaceRuns_word false _ _ hne hlet, replaceSpaceRuns_word true _ _ hne hlet]

theorem normalizedId_sigmaFree (U : CaseData) (s : JsString) (h : 'Σ' ∉ s) :
    getNormalizedId U s = keyEach U.lower s := by
  unfold getNormalizedId keyEach
  rw [toLowerCase_sigmaFree U (trim s) (fun e => h (dropWhile_subset_mem s _ e))]

theorem splitOnP_mem (s : JsString) :
    ∀ w ∈ s.splitOnP isWhiteSpace, ∀ d ∈ w, d ∈ s := by
  induction s with
  | nil => intro w hw d hd; simp at hw; rw [hw] at hd; exact hd
  | cons c cs ih =>
    intro w hw d hd
    cases hc : isWhiteSpace c with
    | true =>
      simp only [List.splitOnP_cons, hc, if_true, List.mem_cons] at hw
      rcases hw with rfl | hw
      · simp at hd
      · exact List.mem_cons_of_mem _ (ih w hw d hd)
    | false =>
      obtain ⟨w0, rest, h1, h2⟩ := splitOnP_cons_letter c cs hc
      rw [h2] at hw
      rcases List.mem_cons.mp hw with rfl | hw
      · rcases List.mem_cons.mp hd with rfl | hd
        · exact List.mem_cons_self _ _
        · exact List.mem_cons_of_mem _ (ih w0 (by rw [h1]; exact List.mem_cons_self _ _) d hd)
      · exact List.mem_cons_of_mem _
          (ih w (by rw [h1]; exact List.mem_cons_of_mem _ hw) d hd)

theorem normalizeSpec_sigmaFree (U : CaseData) (s : JsString) (h : 'Σ' ∉ s) :
    normalizeSpec U s = wordsJoined U.lower s := by
  unfold normalizeSpec wordsJoined
  congr 1
  apply List.map_congr_left
  intro w hw
  apply toLowerCase_sigmaFree
  intro e
  exact h (splitOnP_mem s w (List.mem_of_mem_filter hw) _ e)
theorem isWhiteSpace_not_upper (c : Char) (hc : isWhiteSpace c = true) :
    ¬ (c.toNat ≥ 65 ∧ c.toNat ≤ 90) := by
  intro ⟨h1, h2⟩
  generalize hn : c.toNat = n at h1 h2
  simp only [isWhiteSpace, hn] at hc
  simp at hc
  omega

theorem isWhiteSpace_toLower (c : Char) (hc : isWhiteSpace c = false) :
    isWhiteSpace c.toLower = false := by
  by_cases h : c.toNat ≥ 65 ∧ c.toNat ≤ 90
  · obtain ⟨h1, h2⟩ := h
    have : c.toLower = Char.ofNat (c.toNat + 32) := by simp [Char.toLower, h1, h2]
    rw [this]
    generalize c.toNat = n at h1 h2
    interval_cases n <;> decide
  · have : c.toLower = c := by simp only [Char.toLower, h, if_false]
    rw [this]; exact hc

theorem lower_of_space (U : CaseData) (c : Char) (hc : isWhiteSpace c = true) :
    U c = U.map c := by
  have h1 : c ≠ 'Σ' := fun e => absurd (e ▸ hc) (by decide)
  have h2 : c ≠ 'σ' := fun e => absurd (e ▸ hc) (by decide)
  have h3 : c ≠ 'ς' := fun e => absurd (e ▸ hc) (by decide)
  show CaseData.lower U c = U.map c
  simp [CaseData.lower, h1, h2, h3]

theorem caseTable_of_map (U : CaseData)
    (hspace : ∀ c, isWhiteSpace c = true → U.map c = [c])
    (hletter : ∀ c, isWhiteSpace c = false →
      U.map c ≠ [] ∧ ∀ d ∈ U.map c, isWhiteSpace d = false) : CaseTable U := by
  constructor
  · intro c hc
    rw [lower_of_space U c hc]
    exact hspace c hc
  · intro c hc
    show CaseData.lower U c ≠ [] ∧ ∀ d ∈ CaseData.lower U c, isWhiteSpace d = false
    unfold CaseData.lower
    split
    · exact ⟨by simp, fun d hd => by rw [List.mem_singleton.mp hd]; decide⟩
    · split
      · exact ⟨by simp, fun d hd => by rw [List.mem_singleton.mp hd]; decide⟩
      · split
        · exact ⟨by simp, fun d hd => by rw [List.mem_singleton.mp hd]; decide⟩
        · exact hletter c hc

theorem asciiLower_caseTable : CaseTable asciiLower := by
  apply caseTable_of_map
  · intro c hc
    simp only [asciiLower, Char.toLower, isWhiteSpace_not_upper c hc, if_false]
  · intro c hc
    refine ⟨by simp [asciiLower], ?_⟩
    intro d hd
    simp only [asciiLower, List.mem_singleton] at hd
    rw [hd]
    exact isWhiteSpace_toLower c hc

theorem isGreekCapital_lower (c : Char) (h : isGreekCapital c = true) :
    isWhiteSpace (Char.ofNat (c.toNat + 32)) = false := by
  have h1 : 0x391 ≤ c.toNat ∧ c.toNat ≤ 0x3A9 := by
    simp only [isGreekCapital, Bool.and_eq_true, decide_eq_true_eq] at h
    exact ⟨h.1.1, h.1.2⟩
  obtain ⟨ha, hb⟩ := h1
  generalize c.toNat = n at ha hb
  interval_cases n <;> decide

theorem isWhiteSpace_not_greek (c : Char) (hc : isWhiteSpace c = true) :
    isGreekCapital c = false := by
  cases hg : isGreekCapital c with
  | false => rfl
  | true =>
    have h1 : 0x391 ≤ c.toNat ∧ c.toNat ≤ 0x3A9 := by
      simp only [isGreekCapital, Bool.and_eq_true, decide_eq_true_eq] at hg
      exact ⟨hg.1.1, hg.1.2⟩
    obtain ⟨ha, hb⟩ := h1
    generalize hn : c.toNat = n at ha hb
    simp only [isWhiteSpace, hn] at hc
    simp at hc
    omega

theorem latinGreek_caseTable : CaseTable latinGreek := by
  apply caseTable_of_map
  · intro c hc
    simp only [latinGreek, isWhiteSpace_not_greek c hc, Bool.false_eq_true, if_false,
      Char.toLower, isWhiteSpace_not_upper c hc]
  · intro c hc
    cases hg : isGreekCapital c with
    | true =>
      refine ⟨by simp [latinGreek, hg], ?_⟩
      intro d hd
      simp only [latinGreek, hg, if_true, List.mem_singleton] at hd
      rw [hd]
      exact isGreekCapital_lower c hg
    | false =>
      refine ⟨by simp [latinGreek, hg], ?_⟩
      intro d hd
      simp only [latinGreek, hg, Bool.false_eq_true, if_false, List.mem_singleton] at hd
      rw [hd]
      exact isWhiteSpace_toLower c hc

/-- C1 fails where toLowerCase is context sensitive: in the name a, capital sigma, byte
order mark, capital nu, A the sigma is followed by a cased letter (the byte order mark is
case-ignorable), so the code writes the small sigma, while the first word lowered on its
own ends in the final sigma. -/
theorem getNormalizedId_words_counterexample :
    CaseTable latinGreek ∧
    words sigmaName = [['a', 'Σ'], [Char.ofNat 0x39D, 'A']] ∧
    getNormalizedId latinGreek sigmaName = ['a', 'σ', '-', 'ν', 'a'] ∧
    normalizeSpec latinGreek sigmaName = ['a', 'ς', '-', 'ν', 'a'] ∧
    getNormalizedId latinGreek sigmaName ≠ normalizeSpec latinGreek sigmaName :=
  ⟨latinGreek_caseTable, by decide, by decide, by decide, by decide⟩

/-- C1 as amended: for every raw name, getNormalizedId returns the maximal runs of
characters that are not white space of the trimmed name put in lower case as a whole,
joined by single hyphens: leading and trailing white space is dropped and each inner run of
white space becomes exactly one hyphen; for a name without capital sigma (the one
character whose lower case form depends on its context) these are the words of the name,
each in lower case, joined by single hyphens. -/
theorem getNormalizedId_eq_words (lower : CaseData) (hl : CaseTable lower)
    (s : JsString) :
    getNormalizedId lower s
      = List.intercalate ['-'] (words (toLowerCase lower (trim s))) ∧
    ('Σ' ∉ s → getNormalizedId lower s = normalizeSpec lower s) := by
  refine ⟨normalizedId_lowered lower hl s, ?_⟩
  intro h
  rw [normalizedId_sigmaFree lower s h, keyEach_words _ hl.spaceSafe,
    normalizeSpec_sigmaFree lower s h]

theorem getNormalizedId_eq_words_witness :
    CaseTable asciiLower ∧
    getNormalizedId asciiLower " Super Hunter ".toList =
      normalizeSpec asciiLower " Super Hunter ".toList ∧
    getNormalizedId asciiLower " Super Hunter ".toList = "super-hunter".toList :=
  ⟨asciiLower_caseTable,
   (getNormalizedId_eq_words asciiLower asciiLower_caseTable " Super Hunter ".toList).2
     (by decide),
   by decide⟩

/-! ## Progress model -/

theorem foldl_addPoints (tasks : List Quest) (acc : Int)
    (h : ∀ q ∈ tasks, starsInRange q) :
    tasks.foldl addPoints acc = acc + 10 * completedDifficulty tasks := by
  induction tasks generalizing acc with
  | nil => simp [completedDifficulty]
  | cons q qs ih =>
    have hq : starsInRange q := h q (List.mem_cons_self _ _)
    have hqs : ∀ x ∈ qs, starsInRange x := fun x hx => h x (List.mem_cons_of_mem _ hx)
    obtain ⟨n, hn, h1, _⟩ := hq
    have hn0 : n ≠ 0 := by omega
    rw [List.foldl_cons, ih _ hqs]
    cases hc : q.completed with
    | true =>
      simp only [addPoints, hc, if_true, hn, starsOrOne, hn0, if_false, completedDifficulty,
        List.filter_cons, List.map_cons, List.sum_cons, difficulty, Option.getD_some]
      ring
    | false =>
      simp [addPoints, hc, completedDifficulty, List.filter_cons]

/-- C2: for every quest collection whose difficulties are integers from 1 to 9, totalPoints
computed by stats is ten times the summed difficulty of the completed quests; quests that
are not completed add nothing. -/
theorem stats_totalPoints (Q : List Quest) (h : ∀ q ∈ Q, starsInRange q) :
    (stats Q).totalPoints = 10 * completedDifficulty Q := by
  have := foldl_addPoints Q 0 h
  simpa [stats] using this

theorem sample_starsInRange :
    ∀ q ∈ [sampleQuest "a" 9 true, sampleQuest "b" 4 false, sampleQuest "c" 6 true],
      starsInRange q := by
  intro q hq
  simp only [List.mem_cons, List.mem_singleton, List.not_mem_nil, or_false] at hq
  rcases hq with rfl | rfl | rfl
  · exact ⟨9, rfl, by decide, by decide⟩
  · exact ⟨4, rfl, by decide, by decide⟩
  · exact ⟨6, rfl, by decide, by decide⟩

theorem stats_totalPoints_witness :
    (stats [sampleQuest "a" 9 true, sampleQuest "b" 4 false, sampleQuest "c" 6 true]).totalPoints
        = 10 * completedDifficulty
            [sampleQuest "a" 9 true, sampleQuest "b" 4 false, sampleQuest "c" 6 true] ∧
      (stats [sampleQuest "a" 9 true, sampleQuest "b" 4 false, sampleQuest "c" 6 true]).totalPoints
        = 150 :=
  ⟨stats_totalPoints _ sample_starsInRange, by decide⟩

/-- C3: stats returns rank = floor(points / 100) + 1 and progress = points mod 100 (the JS
remainder, which is the mathematical one as points are not negative); the empty collection
gives rank 1 and progress 0, a collection worth exactly 100 points gives rank 2 and progress
0, and one worth 150 points gives rank 2 and progress 50. -/
theorem stats_rank_progress (Q Q100 Q150 : List Quest)
    (h100 : (stats Q100).totalPoints = 100) (h150 : (stats Q150).totalPoints = 150) :
    (stats Q).rank = ⌊((stats Q).totalPoints : ℚ) / 100⌋ + 1 ∧
    (stats Q).progress = Int.tmod (stats Q).totalPoints 100 ∧
    (0 ≤ (stats Q).totalPoints → (stats Q).progress = (stats Q).totalPoints % 100) ∧
    ((stats []).rank = 1 ∧ (stats []).progress = 0) ∧
    ((stats Q100).rank = 2 ∧ (stats Q100).progress = 0) ∧
    ((stats Q150).rank = 2 ∧ (stats Q150).progress = 50) := by
  have hrank : ∀ T : List Quest, (stats T).rank = (stats T).totalPoints / 100 + 1 := by
    intro T
    simp only [stats]
    rw [Int.fdiv_eq_ediv _ (by decide)]
  have hprog : ∀ T : List Quest, (stats T).progress = Int.tmod (stats T).totalPoints 100 :=
    fun _ => rfl
  refine ⟨?_, hprog Q, ?_, ⟨by decide, by decide⟩, ⟨?_, ?_⟩, ⟨?_, ?_⟩⟩
  · rw [hrank Q]
    have := Rat.floor_intCast_div_natCast (stats Q).totalPoints 100
    simpa using this.symm
  · intro h0
    rw [hprog Q, Int.tmod_eq_emod h0 (by decide)]
  · rw [hrank, h100]; decide
  · rw [hprog, h100]; decide
  · rw [hrank, h150]; decide
  · rw [hprog, h150]; decide

theorem stats_rank_progress_witness :
    (stats [sampleQuest "a" 9 true, sampleQuest "b" 1 true]).totalPoints = 100 ∧
    (stats [sampleQuest "a" 9 true, sampleQuest "c" 6 true]).totalPoints = 150 ∧
    (stats [sampleQuest "a" 9 true, sampleQuest "b" 1 true]).rank = 2 ∧
    (stats [sampleQuest "a" 9 true, sampleQuest "c" 6 true]).progress = 50 :=
  have h := stats_rank_progress [sampleQuest "a" 3 true]
    [sampleQuest "a" 9 true, sampleQuest "b" 1 true]
    [sampleQuest "a" 9 true, sampleQuest "c" 6 true] (by decide) (by decide)
  ⟨by decide, by decide, h.2.2.2.2.1.1, h.2.2.2.2.2.2⟩

/-! ## Quest lifecycle: toggleTask -/

theorem map_update_of_absent (l : List Quest) (tid : JsString) (f : Quest → Quest)
    (h : l.any (fun q => q.id == tid) = false) :
    l.map (fun q => if q.id = tid then f q else q) = l := by
  induction l with
  | nil => rfl
  | cons a l ih =>
    simp only [List.any_cons, Bool.or_eq_false_iff, beq_eq_false_iff_ne, ne_eq] at h
    simp only [List.map_cons, h.1, if_false, ih h.2]

theorem togglePatch_apply (task q : Quest) (now : JsString) :
    (togglePatch task now).apply q = q.withToggle task.completed now := by
  cases hc : task.completed <;> simp [togglePatch, TaskPatch.apply, Quest.withToggle, hc]

/-- C4: toggleTask writes completed = not (completed of the quest it is given) and
completedAt = the current time when the quest becomes completed, null when it becomes
incomplete; the patch holds no other field, so in the store the quest with that id changes
in these two fields only, and no other quest, no profile and nothing of the session or view
changes. -/
theorem toggleTask_writes (task : Quest) (now id : JsString) (s : App)
    (hid : s.currentHunterId = some id) :
    togglePatch task now =
      { name := none, details := none, stars := none, monsterIcon := none, dueDate := none,
        completed := some (!task.completed), createdAt := none,
        completedAt := some (if task.completed then Stamp.null else Stamp.time now),
        updatedAt := none } ∧
    (toggleTask task now true s).store.tasks id =
      (s.store.tasks id).map
        (fun q => if q.id = task.id then q.withToggle task.completed now else q) ∧
    (∀ k, k ≠ id → (toggleTask task now true s).store.tasks k = s.store.tasks k) ∧
    (toggleTask task now true s).store.profile = s.store.profile ∧
    (toggleTask task now true s).session = s.session ∧
    (toggleTask task now true s).tasks = s.tasks ∧
    (toggled task now).completed = (!task.completed) ∧
    (toggled task now).completedAt = (if task.completed then Stamp.null else Stamp.time now) ∧
    (toggled task now).name = task.name ∧ (toggled task now).details = task.details ∧
    (toggled task now).stars = task.stars ∧ (toggled task now).monsterIcon = task.monsterIcon ∧
    (toggled task now).dueDate = task.dueDate ∧ (toggled task now).createdAt = task.createdAt ∧
    (toggled task now).updatedAt = task.updatedAt ∧ (toggled task now).id = task.id := by
  have hpatch : togglePatch task now =
      { name := none, details := none, stars := none, monsterIcon := none, dueDate := none,
        completed := some (!task.completed), createdAt := none,
        completedAt := some (if task.completed then Stamp.null else Stamp.time now),
        updatedAt := none } := by
    cases hc : task.completed <;> simp [togglePatch, hc]
  have htog : toggled task now = task.withToggle task.completed now :=
    togglePatch_apply task task now
  refine ⟨hpatch, ?_, ?_, ?_, ?_, ?_, ?_⟩
  · cases hany : (s.store.tasks id).any (fun q => q.id == task.id) with
    | true =>
      simp [toggleTask, hid, Store.updateTask, hany, togglePatch_apply]
    | false =>
      rw [map_update_of_absent _ _ _ hany]
      simp [toggleTask, hid, Store.updateTask, hany]
  · intro k hk
    cases hany : (s.store.tasks id).any (fun q => q.id == task.id) <;>
      simp [toggleTask, hid, Store.updateTask, hany, hk]
  · funext k
    cases hany : (s.store.tasks id).any (fun q => q.id == task.id) <;>
      simp [toggleTask, hid, Store.updateTask, hany, Store.profile]
  · cases hany : (s.store.tasks id).any (fun q => q.id == task.id) <;>
      simp [toggleTask, hid, Store.updateTask, hany]
  · cases hany : (s.store.tasks id).any (fun q => q.id == task.id) <;>
      simp [toggleTask, hid, Store.updateTask, hany]
  · rw [htog]
    simp [Quest.withToggle]

theorem toggleTask_writes_witness :
    sampleApp.currentHunterId = some "ash-ketchum".toList ∧
    (toggleTask (sampleQuest "q1" 3 false) "2024-03-01T10:00:00.000Z".toList true
        sampleApp).store.tasks "ash-ketchum".toList =
      [{ sampleQuest "q1" 3 false with
          completed := true
          completedAt := Stamp.time "2024-03-01T10:00:00.000Z".toList },
       sampleQuest "q2" 5 true] :=
  ⟨rfl,
   (toggleTask_writes (sampleQuest "q1" 3 false) "2024-03-01T10:00:00.000Z".toList
      "ash-ketchum".toList sampleApp rfl).2.1.trans (by decide)⟩

/-- C5 fails for a quest that is already completed: the second toggle stamps completedAt
with its own time, so the original completion time is not restored. -/
theorem toggle_twice_counterexample :
    (sampleQuest "q2" 5 true).completedAt = Stamp.time "2024-01-02T00:00:00.000Z".toList ∧
    (toggled (toggled (sampleQuest "q2" 5 true) "2024-03-01T10:00:00.000Z".toList)
        "2024-03-01T10:00:05.000Z".toList).completedAt
      = Stamp.time "2024-03-01T10:00:05.000Z".toList ∧
    (toggled (toggled (sampleQuest "q2" 5 true) "2024-03-01T10:00:00.000Z".toList)
        "2024-03-01T10:00:05.000Z".toList).completedAt
      ≠ (sampleQuest "q2" 5 true).completedAt := by
  decide

/-- C5 as amended: toggling a quest twice (the second toggle applied to the result of the
first) restores completed and leaves every other field but completedAt as it was;
completedAt ends as null when the quest was incomplete at the start, and as the time of the
second toggle when it was completed at the start. -/
theorem toggle_twice (q : Quest) (t1 t2 : JsString) :
    (toggled (toggled q t1) t2).completed = q.completed ∧
    (toggled (toggled q t1) t2).completedAt =
      (if q.completed then Stamp.time t2 else Stamp.null) ∧
    toggled (toggled q t1) t2 =
      { q with completedAt := if q.completed then Stamp.time t2 else Stamp.null } := by
  cases hc : q.completed <;>
    simp [toggled, togglePatch, TaskPatch.apply, hc]

/-! ## The completion invariant over all runs -/

theorem newQuest_consistent (f : FormTask) (now newId : JsString) :
    (newQuest f now newId).consistent := by
  simp [Quest.consistent, newQuest, Stamp.isSet, Stamp.isNull]

theorem editPatch_consistent (f : FormTask) (now : JsString) (q : Quest) (h : q.consistent) :
    ((editPatch f now).apply q).consistent := by
  simpa [Quest.consistent, editPatch, TaskPatch.apply] using h

theorem togglePatch_consistent (task : Quest) (now : JsString) (q : Quest) :
    ((togglePatch task now).apply q).consistent := by
  cases hc : task.completed <;>
    simp [Quest.consistent, togglePatch, TaskPatch.apply, hc, Stamp.isSet, Stamp.isNull]

theorem updateTask_consistent (st st' : Store) (id tid : JsString) (p : TaskPatch)
    (hst : st.allConsistent) (hp : ∀ q : Quest, q.consistent → (p.apply q).consistent)
    (hup : st.updateTask id tid p = some st') : st'.allConsistent := by
  unfold Store.updateTask at hup
  split at hup
  · injection hup with hup
    subst hup
    intro k q hq
    by_cases hk : k = id
    · simp only [hk, if_true, List.mem_map] at hq
      obtain ⟨a, ha, rfl⟩ := hq
      have hac := hst id a ha
      split
      · exact hp a hac
      · exact hac
    · simp only [hk, if_false] at hq
      exact hst k q hq
  · exact absurd hup (by simp)

theorem addTask_consistent (st : Store) (id : JsString) (q : Quest)
    (hst : st.allConsistent) (hq : q.consistent) : (st.addTask id q).allConsistent := by
  intro k x hx
  by_cases hk : k = id
  · simp only [Store.addTask, hk, if_true, List.mem_cons] at hx
    rcases hx with rfl | hx
    · exact hq
    · exact hst id x hx
  · simp only [Store.addTask, hk, if_false] at hx
    exact hst k x hx

theorem deleteTask_consistent (st : Store) (id tid : JsString) (hst : st.allConsistent) :
    (st.deleteTask id tid).allConsistent := by
  intro k x hx
  by_cases hk : k = id
  · simp only [Store.deleteTask, hk, if_true] at hx
    exact hst id x (List.mem_of_mem_filter hx)
  · simp only [Store.deleteTask, hk, if_false] at hx
    exact hst k x hx

theorem commitDeletes_consistent (st : Store) (id : JsString) (tids : List JsString)
    (b : Bool) (hst : st.allConsistent) : (st.commitDeletes id tids b).allConsistent := by
  intro k x hx
  by_cases hk : k = id
  · simp only [Store.commitDeletes, hk, if_true] at hx
    exact hst id x (List.mem_of_mem_filter hx)
  · simp only [Store.commitDeletes, hk, if_false] at hx
    exact hst k x hx

theorem handleSubmit_tasks (lower : CaseData) (n i t : JsString) (r w : Bool)
    (s : App) : (handleSubmit lower n i t r w s).store.tasks = s.store.tasks := by
  unfold handleSubmit
  by_cases h1 : trim n = []
  · simp [h1]
  · cases hv : validDocId (getNormalizedId lower n) <;> cases r <;> cases w <;>
      cases hp : s.store.profile (getNormalizedId lower n) <;>
      simp [h1, hp, hv, Store.setProfile]

theorem handleSubmit_consistent (lower : CaseData) (n i t : JsString) (r w : Bool)
    (s : App) (hs : s.store.allConsistent) :
    (handleSubmit lower n i t r w s).store.allConsistent := by
  intro k q hq
  rw [handleSubmit_tasks] at hq
  exact hs k q hq

theorem handleSaveTask_consistent (now newId : JsString) (ok : Bool) (s : App)
    (hs : s.store.allConsistent) : (handleSaveTask now newId ok s).store.allConsistent := by
  unfold handleSaveTask
  split
  · exact hs
  · split
    · exact hs
    · split
      · split
        · exact hs
        · split
          · split
            · next st hup =>
              exact updateTask_consistent _ _ _ _ _ hs (editPatch_consistent _ _) hup
            · exact hs
          · exact hs
      · split
        · exact addTask_consistent _ _ _ hs (newQuest_consistent _ _ _)
        · exact hs

theorem toggleTask_consistent (task : Quest) (now : JsString) (ok : Bool) (s : App)
    (hs : s.store.allConsistent) : (toggleTask task now ok s).store.allConsistent := by
  unfold toggleTask
  split
  · exact hs
  · split
    · split
      · next st hup =>
        exact updateTask_consistent _ _ _ _ _ hs
          (fun q _ => togglePatch_consistent task now q) hup
      · exact hs
    · exact hs

theorem step_consistent (lower : CaseData) (s : App) (e : Event)
    (hs : s.store.allConsistent) : (step lower s e).store.allConsistent := by
  cases e with
  | submit n i t r w =>
    simp only [step]
    split
    · exact hs
    · exact handleSubmit_consistent lower n i t r w s hs
  | logout => exact hs
  | deleteAccount c =>
    simp only [step, handleDeleteAccount]
    split
    · exact hs
    · split
      · exact hs
      · split
        · exact commitDeletes_consistent _ _ _ _ hs
        · exact hs
  | resetProgress c =>
    simp only [step, handleResetProgress]
    split
    · exact hs
    · split
      · exact hs
      · split
        · exact commitDeletes_consistent _ _ _ _ hs
        · exact hs
  | updateProfile a ok =>
    simp only [step, handleUpdateProfile]
    split
    · exact hs
    · split
      · exact hs
      · split
        · split
          · exact hs
          · exact hs
        · exact hs
  | setFormTask f => exact hs
  | toggleAddForm => exact hs
  | startEditTask task => exact hs
  | saveTask t i ok => exact handleSaveTask_consistent t i ok s hs
  | toggleTask task t ok => exact toggleTask_consistent task t ok s hs
  | deleteTask tid c ok =>
    simp only [step, deleteTask]
    split
    · split
      · exact hs
      · split
        · exact deleteTask_consistent _ _ _ hs
        · exact hs
    · exact hs
  | profileSnapshot =>
    simp only [step, profileSnapshot]
    split
    · split <;> exact hs
    · exact hs
  | tasksSnapshot =>
    simp only [step, tasksSnapshot]
    split
    · split <;> exact hs
    · exact hs
  | reload => exact hs

theorem run_consistent (lower : CaseData) (es : List Event) (s : App)
    (hs : s.store.allConsistent) : (run lower s es).store.allConsistent := by
  induction es generalizing s with
  | nil => exact hs
  | cons e es ih => exact ih (step lower s e) (step_consistent lower s e hs)

/-- C6: a quest as handleSaveTask creates it satisfies the completion invariant, and from
any state whose stored quests satisfy it (the empty store in particular) every quest stored
after any sequence of events (create, edit, toggle and all others) satisfies it: completed
is true exactly when completedAt is a time stamp, and false exactly when completedAt holds
none (the null written by toggleTask, or the field never written on a new quest). -/
theorem quest_invariant (lower : CaseData) (s : App) (es : List Event)
    (id : JsString) (q : Quest) (f : FormTask) (now newId : JsString)
    (hs : s.store.allConsistent) (hq : q ∈ (run lower s es).store.tasks id) :
    (newQuest f now newId).consistent ∧
    (q.completed = true ↔ ∃ t, q.completedAt = Stamp.time t) ∧
    (q.completed = false ↔ (q.completedAt = Stamp.null ∨ q.completedAt = Stamp.absent)) := by
  have h := run_consistent lower es s hs id q hq
  refine ⟨newQuest_consistent f now newId, ?_, ?_⟩
  · rw [h.1]
    cases q.completedAt <;> simp [Stamp.isSet]
  · rw [h.2]
    cases q.completedAt <;> simp [Stamp.isNull]

theorem init_consistent : App.init.store.allConsistent := by
  intro id q hq
  simp [App.init, App.mount, Store.empty] at hq

theorem quest_invariant_witness :
    App.init.store.allConsistent ∧
    sampleCompleted ∈ (run asciiLower App.init sampleEvents).store.tasks "ash-ketchum".toList ∧
    (sampleCompleted.completed = true ↔ ∃ t, sampleCompleted.completedAt = Stamp.time t) :=
  ⟨init_consistent, by decide,
   (quest_invariant asciiLower App.init sampleEvents "ash-ketchum".toList sampleCompleted
      sampleForm [] [] init_consistent (by decide)).2.1⟩

/-! ## Login and registration -/

theorem trim_ne_nil_of_key (lower : CaseData) (hunterName : JsString)
    (h : getNormalizedId lower hunterName ≠ []) : trim hunterName ≠ [] := by
  intro ht
  apply h
  simp [getNormalizedId, ht, toLowerCase, toLowerCaseFrom, replaceSpaceRuns]

theorem key_ne_nil (lower : CaseData) (hl : CaseTable lower) (hunterName : JsString)
    (h : trim hunterName ≠ []) : getNormalizedId lower hunterName ≠ [] := by
  unfold getNormalizedId
  cases ht : trim hunterName with
  | nil => exact absurd ht h
  | cons c r =>
    obtain ⟨hne, hlet⟩ := lowerAt_letter lower hl [] r c (trim_head_letter hunterName c r ht)
    simp only [toLowerCase, toLowerCaseFrom]
    rw [replaceSpaceRuns_word false _ _ hne hlet]
    simp [hne]

theorem profile_some_valid (st : Store) (id : JsString) (p : Profile)
    (h : st.profile id = some p) : validDocId id = true := by
  unfold Store.profile at h
  split at h
  · assumption
  · exact absurd h (by simp)

theorem hasDoubleSlash_of_no_slash (id : JsString) (h : '/' ∉ id) :
    hasDoubleSlash id = false := by
  induction id with
  | nil => rfl
  | cons a cs ih =>
    cases cs with
    | nil => rfl
    | cons b ds =>
      have ha : a ≠ '/' := fun e => h (e ▸ List.mem_cons_self _ _)
      have := ih (fun e => h (List.mem_cons_of_mem _ e))
      simp [hasDoubleSlash, ha, this]

theorem valid_of_no_slash (id : JsString) (hne : id ≠ []) (h : '/' ∉ id) :
    validDocId id = true := by
  have hsplit : id.splitOn '/' = [id] := by
    unfold List.splitOn
    apply List.splitOnP_eq_single
    intro x hx hx2
    have : x = '/' := by simpa using hx2
    exact h (this ▸ hx)
  have hseg : pathSegments id = [id] := by
    cases id with
    | nil => exact absurd rfl hne
    | cons c cs => simp [pathSegments, hsplit]
  simp [validDocId, hasDoubleSlash_of_no_slash id h, hseg]

theorem handleSubmit_invalid (lower : CaseData) (hunterName selectedIcon now : JsString)
    (r w : Bool) (s : App) (h : validDocId (getNormalizedId lower hunterName) = false) :
    handleSubmit lower hunterName selectedIcon now r w s = s := by
  unfold handleSubmit
  split
  · rfl
  · simp [h]

theorem handleSubmit_slash :
    getNormalizedId asciiLower "a/b".toList = "a/b".toList ∧
    validDocId "a/b".toList = false ∧ validDocId "ash-ketchum".toList = true ∧
    (handleSubmit asciiLower "a/b".toList "Rathalos_Icon.webp".toList
      "2024-01-01T00:00:00.000Z".toList true true App.init).session = none := by
  decide

/-- C7: when the profile of the normalized key exists (the key being a document id, it is
not empty) and the read succeeds, handleSubmit is a login: the store is left as it was, so
the profile keeps the hunterName, avatar and createdAt of the registration whatever avatar
is selected on the login screen, and the normalized key is stored as the session and
reported to the caller. -/
theorem handleSubmit_login (lower : CaseData) (s : App)
    (hunterName selectedIcon now : JsString) (writeOk : Bool) (p : Profile)
    (hkey : getNormalizedId lower hunterName ≠ [])
    (hp : s.store.profile (getNormalizedId lower hunterName) = some p) :
    (handleSubmit lower hunterName selectedIcon now true writeOk s).store = s.store ∧
    (handleSubmit lower hunterName selectedIcon now true writeOk s).store.profile
        (getNormalizedId lower hunterName) = some p ∧
    (handleSubmit lower hunterName selectedIcon now true writeOk s).session
        = some (getNormalizedId lower hunterName) ∧
    (handleSubmit lower hunterName selectedIcon now true writeOk s).currentHunterId
        = some (getNormalizedId lower hunterName) := by
  have ht := trim_ne_nil_of_key lower hunterName hkey
  have hv := profile_some_valid _ _ _ hp
  simp [handleSubmit, ht, hp, hv]

theorem handleSubmit_login_witness :
    getNormalizedId asciiLower "ash ketchum".toList = "ash-ketchum".toList ∧
    getNormalizedId asciiLower "Ash Ketchum".toList = "ash-ketchum".toList ∧
    (handleSubmit asciiLower "ash ketchum".toList "Nergigante_Icon.webp".toList
        "2024-05-01T00:00:00.000Z".toList true true
        (handleLogout (handleSubmit asciiLower "Ash Ketchum".toList "Rathalos_Icon.webp".toList
          "2024-01-01T00:00:00.000Z".toList true true App.init))).store.profile
      (getNormalizedId asciiLower "ash ketchum".toList)
      = some { hunterName := "Ash Ketchum".toList, avatar := "Rathalos_Icon.webp".toList,
               createdAt := "2024-01-01T00:00:00.000Z".toList } ∧
    (handleSubmit asciiLower "ash ketchum".toList "Nergigante_Icon.webp".toList
        "2024-05-01T00:00:00.000Z".toList true true
        (handleLogout (handleSubmit asciiLower "Ash Ketchum".toList "Rathalos_Icon.webp".toList
          "2024-01-01T00:00:00.000Z".toList true true App.init))).session
      = some (getNormalizedId asciiLower "ash ketchum".toList) :=
  have h := handleSubmit_login asciiLower
    (handleLogout (handleSubmit asciiLower "Ash Ketchum".toList "Rathalos_Icon.webp".toList
      "2024-01-01T00:00:00.000Z".toList true true App.init))
    "ash ketchum".toList "Nergigante_Icon.webp".toList "2024-05-01T00:00:00.000Z".toList true
    { hunterName := "Ash Ketchum".toList, avatar := "Rathalos_Icon.webp".toList,
      createdAt := "2024-01-01T00:00:00.000Z".toList }
    (by decide) (by decide)
  ⟨by decide, by decide, h.2.1, h.2.2.1⟩

/-- C8 fails as stated on two inputs: a name with surrounding white space is registered
under its trimmed form, not as submitted, and a blank name, whose key has no profile, is
rejected by the guard and registers nothing. -/
theorem handleSubmit_register_counterexample :
    (App.init.store.profile (getNormalizedId asciiLower " Ash".toList) = none ∧
     ((handleSubmit asciiLower " Ash".toList "Rathalos_Icon.webp".toList
        "2024-01-01T00:00:00.000Z".toList true true App.init).store.profile
        (getNormalizedId asciiLower " Ash".toList)).map Profile.hunterName
       = some "Ash".toList ∧
     ((handleSubmit asciiLower " Ash".toList "Rathalos_Icon.webp".toList
        "2024-01-01T00:00:00.000Z".toList true true App.init).store.profile
        (getNormalizedId asciiLower " Ash".toList)).map Profile.hunterName
       ≠ some " Ash".toList) ∧
    (App.init.store.profile (getNormalizedId asciiLower "   ".toList) = none ∧
     (handleSubmit asciiLower "   ".toList "Rathalos_Icon.webp".toList
        "2024-01-01T00:00:00.000Z".toList true true App.init).store.profile
        (getNormalizedId asciiLower "   ".toList) = none ∧
     (handleSubmit asciiLower "   ".toList "Rathalos_Icon.webp".toList
        "2024-01-01T00:00:00.000Z".toList true true App.init).session = none) := by
  decide

/-- C8 as amended: for every submitted name that is not blank and whose normalized key
holds no slash (so that it names a document) and has no profile, handleSubmit with
succeeding store calls creates exactly one profile, at that key, whose display name is the
submitted name with leading and trailing white space removed and its casing kept, whose
avatar is the chosen icon and whose createdAt is the current time; it changes no other
profile and no quest, stores the key as the session and reports it to the caller.  When
the read or the write fails nothing changes. -/
theorem handleSubmit_register (lower : CaseData) (hl : CaseTable lower) (s : App)
    (hunterName selectedIcon now : JsString)
    (hname : trim hunterName ≠ [])
    (hslash : '/' ∉ getNormalizedId lower hunterName)
    (hp : s.store.profile (getNormalizedId lower hunterName) = none) :
    (handleSubmit lower hunterName selectedIcon now true true s).store.profile
        (getNormalizedId lower hunterName)
      = some { hunterName := trim hunterName, avatar := selectedIcon, createdAt := now } ∧
    (∀ k, k ≠ getNormalizedId lower hunterName →
      (handleSubmit lower hunterName selectedIcon now true true s).store.profile k
        = s.store.profile k) ∧
    (handleSubmit lower hunterName selectedIcon now true true s).store.tasks = s.store.tasks ∧
    (handleSubmit lower hunterName selectedIcon now true true s).session
        = some (getNormalizedId lower hunterName) ∧
    (handleSubmit lower hunterName selectedIcon now true true s).currentHunterId
        = some (getNormalizedId lower hunterName) ∧
    handleSubmit lower hunterName selectedIcon now true false s = s ∧
    (∀ w, handleSubmit lower hunterName selectedIcon now false w s = s) := by
  have hv : validDocId (getNormalizedId lower hunterName) = true :=
    valid_of_no_slash _ (key_ne_nil lower hl hunterName hname) hslash
  have hp2 : s.store.profileAt (getNormalizedId lower hunterName) = none := by
    simpa [Store.profile, hv] using hp
  refine ⟨?_, ?_, ?_, ?_, ?_, ?_, ?_⟩
  · simp [handleSubmit, hname, hp2, hv, Store.setProfile, Store.profile]
  · intro k hk
    simp [handleSubmit, hname, hp2, hv, Store.setProfile, Store.profile, hk]
  · exact handleSubmit_tasks lower _ _ _ _ _ s
  · simp [handleSubmit, hname, hp, hv]
  · simp [handleSubmit, hname, hp, hv]
  · simp [handleSubmit, hname, hp, hv]
  · intro w
    simp [handleSubmit, hname, hv]

theorem handleSubmit_register_witness :
    trim "Ash Ketchum".toList ≠ [] ∧
    App.init.store.profile (getNormalizedId asciiLower "Ash Ketchum".toList) = none ∧
    getNormalizedId asciiLower "Ash Ketchum".toList = "ash-ketchum".toList ∧
    (handleSubmit asciiLower "Ash Ketchum".toList "Rathalos_Icon.webp".toList
        "2024-01-01T00:00:00.000Z".toList true true App.init).store.profile
        (getNormalizedId asciiLower "Ash Ketchum".toList)
      = some { hunterName := trim "Ash Ketchum".toList, avatar := "Rathalos_Icon.webp".toList,
               createdAt := "2024-01-01T00:00:00.000Z".toList } ∧
    trim "Ash Ketchum".toList = "Ash Ketchum".toList :=
  ⟨by decide, by decide, by decide,
   (handleSubmit_register asciiLower asciiLower_caseTable App.init "Ash Ketchum".toList
      "Rathalos_Icon.webp".toList "2024-01-01T00:00:00.000Z".toList (by decide) (by decide)
      (by decide)).1,
   by decide⟩

/-! ## Account lifecycle: reset and delete -/

theorem truthy_some (id : JsString) (h : id ≠ []) : truthy (some id) = true := by
  cases id with
  | nil => exact absurd rfl h
  | cons c cs => rfl

theorem filter_listed_eq_nil (stored view : List Quest)
    (h : ∀ q ∈ stored, q.id ∈ view.map Quest.id) :
    stored.filter (fun q => !(view.map Quest.id).contains q.id) = [] := by
  rw [List.filter_eq_nil_iff]
  intro q hq
  have := h q hq
  simpa using this

theorem sampleApp_viewCurrent : sampleApp.viewCurrent := by
  intro id hid q hq
  have hid2 : id = "ash-ketchum".toList := by
    have : some "ash-ketchum".toList = some id := hid
    injection this with h
    exact h.symm
  subst hid2
  have hq2 : q ∈ [sampleQuest "q1" 3 false, sampleQuest "q2" 5 true] := hq
  simp only [List.mem_cons, List.mem_singleton, List.not_mem_nil, or_false] at hq2
  rcases hq2 with rfl | rfl <;> decide

/-- With a local quest view that lists every stored quest, handleResetProgress does what
its help text says: after a successful commit the collection of the active account is
empty and the profile records are as before. -/
theorem handleResetProgress_current (s : App) (id : JsString)
    (hid : s.currentHunterId = some id) (hne : id ≠ []) (hv : s.viewCurrent) :
    (handleResetProgress true s).store.tasks id = [] ∧
    (handleResetProgress true s).store.profile = s.store.profile := by
  have htr : truthy (some id) = true := truthy_some id hne
  constructor
  · have : (handleResetProgress true s).store.tasks id =
        (s.store.tasks id).filter (fun q => !(s.tasks.map Quest.id).contains q.id) := by
      simp [handleResetProgress, hid, htr, Store.commitDeletes]
    rw [this]
    exact filter_listed_eq_nil _ _ (hv id hid)
  · funext k
    simp [handleResetProgress, hid, htr, Store.commitDeletes, Store.profile]

/-- C9, where the code misses it: the batch of handleResetProgress is built from the local
quest view, not from the stored collection.  After a page reload and before the first
snapshot the view is empty, the committed batch holds no delete, and both quests stored
under the active account survive the reset, against the claim and against the help text
of the button (all quests are deleted). -/
theorem handleResetProgress_stale_view :
    (step asciiLower sampleApp Event.reload).currentHunterId = some "ash-ketchum".toList ∧
    (step asciiLower sampleApp Event.reload).tasks = [] ∧
    (step asciiLower sampleApp Event.reload).store.tasks "ash-ketchum".toList
      = [sampleQuest "q1" 3 false, sampleQuest "q2" 5 true] ∧
    (handleResetProgress true (step asciiLower sampleApp Event.reload)).store.tasks
        "ash-ketchum".toList
      = [sampleQuest "q1" 3 false, sampleQuest "q2" 5 true] ∧
    (handleResetProgress true (step asciiLower sampleApp Event.reload)).store.tasks
        "ash-ketchum".toList ≠ [] := by
  decide

/-- With a local quest view that lists every stored quest, handleDeleteAccount does what
its help text says: after a successful commit the profile and every quest of the account
are gone and the session is cleared. -/
theorem handleDeleteAccount_current (s : App) (id : JsString)
    (hid : s.currentHunterId = some id) (hne : id ≠ []) (hv : s.viewCurrent) :
    (handleDeleteAccount true s).store.profile id = none ∧
    (handleDeleteAccount true s).store.tasks id = [] ∧
    (handleDeleteAccount true s).session = none ∧
    (handleDeleteAccount true s).currentHunterId = none := by
  have htr : truthy (some id) = true := truthy_some id hne
  refine ⟨?_, ?_, ?_, ?_⟩
  · simp [handleDeleteAccount, hid, htr, Store.commitDeletes, handleLogout, Store.profile]
  · have : (handleDeleteAccount true s).store.tasks id =
        (s.store.tasks id).filter (fun q => !(s.tasks.map Quest.id).contains q.id) := by
      simp [handleDeleteAccount, hid, htr, Store.commitDeletes, handleLogout]
    rw [this]
    exact filter_listed_eq_nil _ _ (hv id hid)
  · simp [handleDeleteAccount, hid, htr, handleLogout]
  · simp [handleDeleteAccount, hid, htr, handleLogout]

/-- C10, where the code misses it: the batch of handleDeleteAccount deletes the profile and
the quests of the local view only.  After a page reload and before the first snapshot the
view is empty: the profile and the session go, both stored quests stay under the key, and
when the same name is registered again the new profile finds them there, against the
claim and against the help text of the button (the data is removed for good and the id is
free for another user). -/
theorem handleDeleteAccount_stale_view :
    (step asciiLower sampleApp Event.reload).tasks = [] ∧
    (handleDeleteAccount true (step asciiLower sampleApp Event.reload)).store.profile
        "ash-ketchum".toList = none ∧
    (handleDeleteAccount true (step asciiLower sampleApp Event.reload)).session = none ∧
    (handleDeleteAccount true (step asciiLower sampleApp Event.reload)).store.tasks
        "ash-ketchum".toList
      = [sampleQuest "q1" 3 false, sampleQuest "q2" 5 true] ∧
    (handleSubmit asciiLower "Ash Ketchum".toList "Nergigante_Icon.webp".toList
        "2024-06-01T00:00:00.000Z".toList true true
        (handleDeleteAccount true (step asciiLower sampleApp Event.reload))).store.profile
        "ash-ketchum".toList
      = some { hunterName := "Ash Ketchum".toList, avatar := "Nergigante_Icon.webp".toList,
               createdAt := "2024-06-01T00:00:00.000Z".toList } ∧
    (handleSubmit asciiLower "Ash Ketchum".toList "Nergigante_Icon.webp".toList
        "2024-06-01T00:00:00.000Z".toList true true
        (handleDeleteAccount true (step asciiLower sampleApp Event.reload))).store.tasks
        "ash-ketchum".toList
      = [sampleQuest "q1" 3 false, sampleQuest "q2" 5 true] := by
  decide

/-! ## Logout -/

/-- C11: handleLogout removes the key from session storage (and clears the local state)
without touching the store: profiles and quests are as before, so a later handleSubmit of
a name that normalizes to the key of the account, its read succeeding, takes the login
branch, leaves the store unchanged again and resumes the same key. -/
theorem handleLogout_spec (lower : CaseData) (s : App)
    (id hunterName selectedIcon now : JsString) (writeOk : Bool) (p : Profile)
    (hid : s.currentHunterId = some id) (hne : id ≠ [])
    (hp : s.store.profile id = some p) (hname : getNormalizedId lower hunterName = id) :
    (handleLogout s).session = none ∧
    (handleLogout s).currentHunterId = none ∧
    (handleLogout s).store = s.store ∧
    (handleSubmit lower hunterName selectedIcon now true writeOk (handleLogout s)).store
        = s.store ∧
    (handleSubmit lower hunterName selectedIcon now true writeOk (handleLogout s)).session
        = s.currentHunterId ∧
    (handleSubmit lower hunterName selectedIcon now true writeOk
        (handleLogout s)).currentHunterId = s.currentHunterId ∧
    (handleSubmit lower hunterName selectedIcon now true writeOk
        (handleLogout s)).store.profile id = some p ∧
    (handleSubmit lower hunterName selectedIcon now true writeOk
        (handleLogout s)).store.tasks id = s.store.tasks id := by
  subst hname
  have ht := trim_ne_nil_of_key lower hunterName hne
  have hp2 : (handleLogout s).store.profile (getNormalizedId lower hunterName) = some p := hp
  have hv := profile_some_valid _ _ _ hp
  have hstore : (handleSubmit lower hunterName selectedIcon now true writeOk
      (handleLogout s)).store = s.store := by
    simp [handleSubmit, ht, hp2, hv]
    rfl
  refine ⟨rfl, rfl, rfl, hstore, ?_, ?_, ?_, ?_⟩
  · simp [handleSubmit, ht, hp2, hv, hid]
  · simp [handleSubmit, ht, hp2, hv, hid]
  · rw [hstore]; exact hp
  · rw [hstore]

theorem handleLogout_spec_witness :
    sampleApp.currentHunterId = some "ash-ketchum".toList ∧
    getNormalizedId asciiLower "  ASH   ketchum ".toList = "ash-ketchum".toList ∧
    (handleLogout sampleApp).session = none ∧
    (handleSubmit asciiLower "  ASH   ketchum ".toList "Nergigante_Icon.webp".toList
        "2024-07-01T00:00:00.000Z".toList true true (handleLogout sampleApp)).session
      = some "ash-ketchum".toList ∧
    (handleSubmit asciiLower "  ASH   ketchum ".toList "Nergigante_Icon.webp".toList
        "2024-07-01T00:00:00.000Z".toList true true (handleLogout sampleApp)).store
      = sampleApp.store :=
  have h := handleLogout_spec asciiLower sampleApp "ash-ketchum".toList
    "  ASH   ketchum ".toList "Nergigante_Icon.webp".toList "2024-07-01T00:00:00.000Z".toList
    true
    { hunterName := "Ash Ketchum".toList, avatar := "Rathalos_Icon.webp".toList,
      createdAt := "2024-01-01T00:00:00.000Z".toList }
    rfl (by decide) (by decide) (by decide)
  ⟨rfl, by decide, h.1, h.2.2.2.2.1, h.2.2.2.1⟩

/-! ## Quest lifecycle: handleSaveTask -/

theorem editPatch_apply (f : FormTask) (now : JsString) (q : Quest) :
    (editPatch f now).apply q = q.withEdit f now := by
  simp [editPatch, TaskPatch.apply, Quest.withEdit]

/-- C12: in edit mode handleSaveTask passes to updateDoc a field map holding exactly name,
details, stars, monsterIcon, dueDate and updatedAt = the current time; in the store the
quest with the edited id gets these six fields and keeps completed, completedAt, createdAt
and its id, and no other quest and no profile is modified. -/
theorem handleSaveTask_edit (s : App) (id tid now newId : JsString) (q : Quest)
    (hid : s.currentHunterId = some id) (hne : id ≠ [])
    (hedit : s.editModeTask = some tid) (htid : tid ≠ [])
    (hname : s.formTask.name ≠ []) :
    editPatch s.formTask now =
      { name := some s.formTask.name, details := some s.formTask.details,
        stars := some s.formTask.stars, monsterIcon := some s.formTask.monsterIcon,
        dueDate := some (if s.formTask.dueDate = [] then none else some s.formTask.dueDate),
        completed := none, createdAt := none, completedAt := none, updatedAt := some now } ∧
    (handleSaveTask now newId true s).store.tasks id =
      (s.store.tasks id).map (fun x => if x.id = tid then x.withEdit s.formTask now else x) ∧
    ((q.withEdit s.formTask now).completed = q.completed ∧
      (q.withEdit s.formTask now).completedAt = q.completedAt ∧
      (q.withEdit s.formTask now).createdAt = q.createdAt ∧
      (q.withEdit s.formTask now).id = q.id ∧
      (q.withEdit s.formTask now).updatedAt = some now) ∧
    (∀ k, k ≠ id → (handleSaveTask now newId true s).store.tasks k = s.store.tasks k) ∧
    (handleSaveTask now newId true s).store.profile = s.store.profile := by
  have htr : truthy (some id) = true := truthy_some id hne
  have hte : truthy (some tid) = true := truthy_some tid htid
  refine ⟨rfl, ?_, ⟨rfl, rfl, rfl, rfl, rfl⟩, ?_, ?_⟩
  · cases hany : (s.store.tasks id).any (fun x => x.id == tid) with
    | true =>
      simp [handleSaveTask, hid, hedit, hname, htr, hte, Store.updateTask, hany,
        editPatch_apply]
    | false =>
      rw [map_update_of_absent _ _ _ hany]
      simp [handleSaveTask, hid, hedit, hname, htr, hte, Store.updateTask, hany]
  · intro k hk
    cases hany : (s.store.tasks id).any (fun x => x.id == tid) <;>
      simp [handleSaveTask, hid, hedit, hname, htr, hte, Store.updateTask, hany, hk]
  · funext k
    cases hany : (s.store.tasks id).any (fun x => x.id == tid) <;>
      simp [handleSaveTask, hid, hedit, hname, htr, hte, Store.updateTask, hany,
        Store.profile]

theorem handleSaveTask_edit_witness :
    sampleEditing.currentHunterId = some "ash-ketchum".toList ∧
    sampleEditing.editModeTask = some "q1".toList ∧
    (handleSaveTask "2024-04-01T00:00:00.000Z".toList "unused".toList true
        sampleEditing).store.tasks "ash-ketchum".toList
      = [{ sampleQuest "q1" 3 false with
            name := "Hunt Rathalos".toList
            details := "Ancient Forest".toList
            stars := some 5
            updatedAt := some "2024-04-01T00:00:00.000Z".toList },
         sampleQuest "q2" 5 true] :=
  ⟨rfl, rfl,
   (handleSaveTask_edit sampleEditing "ash-ketchum".toList "q1".toList
      "2024-04-01T00:00:00.000Z".toList "unused".toList (sampleQuest "q1" 3 false)
      rfl (by decide) rfl (by decide) (by decide)).2.1.trans (by decide)⟩

/-- C13: handleSaveTask changes nothing (whatever the mode and the store) when the name of
the form is empty or no hunter id is active; otherwise, outside edit mode and with addDoc
succeeding, it adds exactly one quest to the collection of the active account, carrying the
name, details, stars, icon and due date of the form (an empty due date as null), with
completed = false and createdAt = the current time, and changes no other collection and no
profile. -/
theorem handleSaveTask_create (s s0 : App) (id now newId : JsString) (ok : Bool)
    (hfail : s0.formTask.name = [] ∨ truthy s0.currentHunterId = false)
    (hid : s.currentHunterId = some id) (hne : id ≠ [])
    (hmode : truthy s.editModeTask = false) (hname : s.formTask.name ≠ []) :
    handleSaveTask now newId ok s0 = s0 ∧
    (handleSaveTask now newId true s).store.tasks id
      = newQuest s.formTask now newId :: s.store.tasks id ∧
    (∀ k, k ≠ id → (handleSaveTask now newId true s).store.tasks k = s.store.tasks k) ∧
    (handleSaveTask now newId true s).store.profile = s.store.profile ∧
    ((newQuest s.formTask now newId).name = s.formTask.name ∧
      (newQuest s.formTask now newId).details = s.formTask.details ∧
      (newQuest s.formTask now newId).stars = s.formTask.stars ∧
      (newQuest s.formTask now newId).monsterIcon = s.formTask.monsterIcon ∧
      (newQuest s.formTask now newId).dueDate
        = (if s.formTask.dueDate = [] then none else some s.formTask.dueDate) ∧
      (newQuest s.formTask now newId).completed = false ∧
      (newQuest s.formTask now newId).createdAt = now ∧
      (newQuest s.formTask now newId).completedAt = Stamp.absent ∧
      (newQuest s.formTask now newId).updatedAt = none) := by
  have htr : truthy (some id) = true := truthy_some id hne
  refine ⟨?_, ?_, ?_, ?_, ⟨rfl, rfl, rfl, rfl, rfl, rfl, rfl, rfl, rfl⟩⟩
  · rcases hfail with h | h <;> simp [handleSaveTask, h]
  · simp [handleSaveTask, hid, hname, htr, hmode, Store.addTask]
  · intro k hk
    simp [handleSaveTask, hid, hname, htr, hmode, Store.addTask, hk]
  · funext k
    simp [handleSaveTask, hid, hname, htr, hmode, Store.addTask, Store.profile]

theorem handleSaveTask_create_witness :
    sampleApp.formTask.name = [] ∧
    sampleCreating.currentHunterId = some "ash-ketchum".toList ∧
    handleSaveTask "2024-04-01T00:00:00.000Z".toList "q3".toList true sampleApp = sampleApp ∧
    (handleSaveTask "2024-04-01T00:00:00.000Z".toList "q3".toList true
        sampleCreating).store.tasks "ash-ketchum".toList
      = [newQuest sampleForm "2024-04-01T00:00:00.000Z".toList "q3".toList,
         sampleQuest "q1" 3 false, sampleQuest "q2" 5 true] :=
  have h := handleSaveTask_create sampleCreating sampleApp "ash-ketchum".toList
    "2024-04-01T00:00:00.000Z".toList "q3".toList true (Or.inl rfl) rfl (by decide) rfl
    (by decide)
  ⟨rfl, rfl, h.1, h.2.1⟩

/-! ## Rank titles and failing commits -/

/-- C14: getRankTitle selects the title by the boundaries rank < 2, < 5, < 10, < 20, < 50 and
else: each of the six titles is returned exactly on its range of ranks (1 and below, 2 to 4,
5 to 9, 10 to 19, 20 to 49, 50 and above); stats passes its rank to getRankTitle, and the
empty collection (0 points, rank 1) is titled Novato. -/
theorem getRankTitle_boundaries (rank : Int) (Q : List Quest) :
    (getRankTitle rank = "Novato" ↔ rank < 2) ∧
    (getRankTitle rank = "Cazador de Rango Bajo" ↔ 2 ≤ rank ∧ rank < 5) ∧
    (getRankTitle rank = "Cazador de Rango Alto" ↔ 5 ≤ rank ∧ rank < 10) ∧
    (getRankTitle rank = "Cazador Clase G" ↔ 10 ≤ rank ∧ rank < 20) ∧
    (getRankTitle rank = "Maestro Cazador" ↔ 20 ≤ rank ∧ rank < 50) ∧
    (getRankTitle rank = "Estrella Zafiro" ↔ 50 ≤ rank) ∧
    (stats Q).title = getRankTitle (stats Q).rank ∧
    ((stats []).totalPoints = 0 ∧ (stats []).rank = 1 ∧ (stats []).title = "Novato") := by
  refine ⟨?_, ?_, ?_, ?_, ?_, ?_, rfl, by decide, by decide, by decide⟩ <;>
  · unfold getRankTitle
    split_ifs <;> constructor <;> intro h <;>
      first
        | rfl
        | omega
        | exact absurd h (by decide)

/-- C16: when the commit of the write batch fails, handleResetProgress and
handleDeleteAccount leave the whole state as it was: no quest and no profile is deleted,
and for handleDeleteAccount the logout step does not run, so session storage, the active
hunter id and the local profile and quest view keep their values. -/
theorem bulk_commit_failure (s : App) :
    handleResetProgress false s = s ∧
    handleDeleteAccount false s = s ∧
    ((handleDeleteAccount false s).store.tasks = s.store.tasks ∧
      (handleDeleteAccount false s).store.profile = s.store.profile ∧
      (handleDeleteAccount false s).session = s.session ∧
      (handleDeleteAccount false s).currentHunterId = s.currentHunterId ∧
      (handleDeleteAccount false s).profile = s.profile ∧
      (handleDeleteAccount false s).tasks = s.tasks) ∧
    ((handleResetProgress false s).store.tasks = s.store.tasks ∧
      (handleResetProgress false s).store.profile = s.store.profile) := by
  have hr : handleResetProgress false s = s := by
    unfold handleResetProgress
    cases h : s.currentHunterId <;> simp
  have hd : handleDeleteAccount false s = s := by
    unfold handleDeleteAccount
    cases h : s.currentHunterId <;> simp
  refine ⟨hr, hd, ?_, ?_⟩
  · rw [hd]; exact ⟨rfl, rfl, rfl, rfl, rfl, rfl⟩
  · rw [hr]; exact ⟨rfl, rfl⟩

/-! ## Progress model: bounds and the fallback difficulty -/

theorem foldl_addPoints_add (Q : List Quest) (acc : Int) :
    Q.foldl addPoints acc = acc + Q.foldl addPoints 0 := by
  induction Q generalizing acc with
  | nil => simp
  | cons q qs ih =>
    rw [List.foldl_cons, List.foldl_cons, ih (addPoints acc q), ih (addPoints 0 q)]
    have : addPoints acc q = acc + addPoints 0 q := by
      unfold addPoints
      split <;> simp
    rw [this]
    ring

theorem totalPoints_insert (Q₁ Q₂ : List Quest) (t : Quest) :
    (stats (Q₁ ++ t :: Q₂)).totalPoints = (stats (Q₁ ++ Q₂)).totalPoints + addPoints 0 t := by
  simp only [stats, List.foldl_append, List.foldl_cons]
  rw [foldl_addPoints_add Q₂ (addPoints _ t), foldl_addPoints_add Q₂ (List.foldl addPoints 0 Q₁)]
  have : addPoints (List.foldl addPoints 0 Q₁) t = List.foldl addPoints 0 Q₁ + addPoints 0 t := by
    unfold addPoints
    split <;> simp
  rw [this]
  ring

theorem foldl_addPoints_dvd (Q : List Quest) (acc : Int) (h : 10 ∣ acc) :
    10 ∣ Q.foldl addPoints acc := by
  induction Q generalizing acc with
  | nil => exact h
  | cons q qs ih =>
    rw [List.foldl_cons]
    apply ih
    unfold addPoints
    split
    · exact Int.dvd_add h (Dvd.intro_left _ rfl)
    · exact h

theorem starsOrOne_pos (o : Option Int) (h : ∀ n : Int, o = some n → 0 ≤ n) :
    1 ≤ starsOrOne o := by
  cases o with
  | none => simp [starsOrOne]
  | some n =>
    have := h n rfl
    show 1 ≤ (if n = 0 then 1 else n)
    split <;> omega

theorem foldl_addPoints_nonneg (Q : List Quest) (acc : Int) (h : noNegativeStars Q)
    (hacc : 0 ≤ acc) : 0 ≤ Q.foldl addPoints acc := by
  induction Q generalizing acc with
  | nil => exact hacc
  | cons q qs ih =>
    rw [List.foldl_cons]
    apply ih _ (fun x hx => h x (List.mem_cons_of_mem _ hx))
    unfold addPoints
    split
    · next hc =>
      have := starsOrOne_pos q.stars (h q (List.mem_cons_self _ _) hc)
      omega
    · exact hacc

theorem starsStored_nonneg (Q : List Quest) (h : ∀ q ∈ Q, starsStored q) :
    noNegativeStars Q := by
  intro q hq _ n hn
  rcases h q hq with h1 | ⟨m, hm, h0, _⟩
  · rw [h1] at hn; exact absurd hn (by simp)
  · rw [hm] at hn
    injection hn with e
    omega

theorem starsOrOne_le (q : Quest) (h : starsStored q) : starsOrOne q.stars ≤ 9 := by
  rcases h with h1 | ⟨m, hm, _, h9⟩
  · rw [h1]; decide
  · rw [hm]
    show (if m = 0 then 1 else m) ≤ 9
    split <;> omega

theorem foldl_addPoints_le (Q : List Quest) (acc : Int) (h : ∀ q ∈ Q, starsStored q) :
    Q.foldl addPoints acc ≤ acc + 90 * Q.length := by
  induction Q generalizing acc with
  | nil => simp
  | cons q qs ih =>
    rw [List.foldl_cons]
    have h1 := ih (addPoints acc q) (fun x hx => h x (List.mem_cons_of_mem _ hx))
    have h2 : addPoints acc q ≤ acc + 90 := by
      have := starsOrOne_le q (h q (List.mem_cons_self _ _))
      unfold addPoints
      split <;> omega
    simp only [List.length_cons, Nat.cast_add, Nat.cast_one]
    omega

/-- C17: for every quest collection the application can hold (each difficulty an integer
from 1 to 9, or the missing or zero value that stats counts as 1), the values returned by
stats satisfy rank >= 1, 0 <= progress < 100 and totalPoints = 100 * (rank - 1) + progress,
and totalPoints and progress are multiples of 10.  The total is at most 90 points a quest,
so it stays in the range where the double arithmetic of the code is exact. -/
theorem stats_bounds (Q : List Quest) (h : ∀ q ∈ Q, starsStored q) :
    1 ≤ (stats Q).rank ∧
    (0 ≤ (stats Q).progress ∧ (stats Q).progress < 100) ∧
    (stats Q).totalPoints = 100 * ((stats Q).rank - 1) + (stats Q).progress ∧
    (10 ∣ (stats Q).totalPoints ∧ 10 ∣ (stats Q).progress) ∧
    (0 ≤ (stats Q).totalPoints ∧ (stats Q).totalPoints ≤ 90 * Q.length) := by
  have hdvd : 10 ∣ (stats Q).totalPoints := foldl_addPoints_dvd Q 0 (by decide)
  have hrank : (stats Q).rank = (stats Q).totalPoints / 100 + 1 := by
    simp only [stats]
    rw [Int.fdiv_eq_ediv _ (by decide)]
  have hprog : (stats Q).progress = Int.tmod (stats Q).totalPoints 100 := rfl
  have h0 : 0 ≤ (stats Q).totalPoints :=
    foldl_addPoints_nonneg Q 0 (starsStored_nonneg Q h) (le_refl 0)
  have hle : (stats Q).totalPoints ≤ 90 * Q.length := by
    have := foldl_addPoints_le Q 0 h
    simpa [stats] using this
  rw [hrank, hprog, Int.tmod_eq_emod h0 (by decide)]
  refine ⟨?_, ⟨?_, ?_⟩, ?_, ⟨hdvd, ?_⟩, h0, hle⟩ <;> omega

theorem sample_starsStored :
    ∀ q ∈ [sampleQuest "a" 9 true, sampleBare, sampleQuest "c" 7 true], starsStored q := by
  intro q hq
  simp only [List.mem_cons, List.mem_singleton, List.not_mem_nil, or_false] at hq
  rcases hq with rfl | rfl | rfl
  · exact Or.inr ⟨9, rfl, by decide, by decide⟩
  · exact Or.inl rfl
  · exact Or.inr ⟨7, rfl, by decide, by decide⟩

theorem stats_bounds_witness :
    (∀ q ∈ [sampleQuest "a" 9 true, sampleBare, sampleQuest "c" 7 true], starsStored q) ∧
    (stats [sampleQuest "a" 9 true, sampleBare, sampleQuest "c" 7 true]).totalPoints = 170 ∧
    (stats [sampleQuest "a" 9 true, sampleBare, sampleQuest "c" 7 true]).rank = 2 ∧
    (stats [sampleQuest "a" 9 true, sampleBare, sampleQuest "c" 7 true]).progress = 70 ∧
    1 ≤ (stats [sampleQuest "a" 9 true, sampleBare, sampleQuest "c" 7 true]).rank :=
  ⟨sample_starsStored, by decide, by decide, by decide,
   (stats_bounds [sampleQuest "a" 9 true, sampleBare, sampleQuest "c" 7 true]
      sample_starsStored).1⟩

/-- C19: in stats a completed quest whose stars is missing or 0 is counted as difficulty
1 and adds exactly 10 points to totalPoints rather than 0, so that, in every collection
the application can hold (each difficulty an integer from 1 to 9, missing or 0), every
completed quest adds at least 10 points: its difficulty, read as 1 when missing or 0,
times 10. -/
theorem stats_fallback (Q₁ Q₂ : List Quest) (t : Quest)
    (h : ∀ q ∈ Q₁ ++ t :: Q₂, starsStored q) (hc : t.completed = true) :
    ((t.stars = none ∨ t.stars = some 0) →
      (stats (Q₁ ++ t :: Q₂)).totalPoints = (stats (Q₁ ++ Q₂)).totalPoints + 10) ∧
    (stats (Q₁ ++ Q₂)).totalPoints + 10 ≤ (stats (Q₁ ++ t :: Q₂)).totalPoints ∧
    (stats (Q₁ ++ t :: Q₂)).totalPoints
      = (stats (Q₁ ++ Q₂)).totalPoints + starsOrOne t.stars * 10 ∧
    (stats (Q₁ ++ t :: Q₂)).totalPoints ≤ 90 * (Q₁ ++ t :: Q₂).length := by
  have hadd : addPoints 0 t = starsOrOne t.stars * 10 := by simp [addPoints, hc]
  have htot := totalPoints_insert Q₁ Q₂ t
  rw [hadd] at htot
  have ht : starsStored t := h t (by simp)
  have hpos : 1 ≤ starsOrOne t.stars := by
    apply starsOrOne_pos
    intro n hn
    rcases ht with h1 | ⟨m, hm, h0, _⟩
    · rw [h1] at hn; exact absurd hn (by simp)
    · rw [hm] at hn
      injection hn with e
      omega
  have hle : (stats (Q₁ ++ t :: Q₂)).totalPoints ≤ 90 * (Q₁ ++ t :: Q₂).length := by
    have := foldl_addPoints_le (Q₁ ++ t :: Q₂) 0 h
    simpa [stats] using this
  refine ⟨?_, ?_, htot, hle⟩
  · intro h0
    rw [htot]
    rcases h0 with h0 | h0 <;> simp [h0, starsOrOne]
  · rw [htot]
    omega

theorem sample_fallback_stored :
    ∀ q ∈ [sampleQuest "a" 3 true] ++ sampleBare :: [], starsStored q := by
  intro q hq
  simp only [List.singleton_append, List.mem_cons, List.mem_singleton, List.not_mem_nil,
    or_false] at hq
  rcases hq with rfl | rfl
  · exact Or.inr ⟨3, rfl, by decide, by decide⟩
  · exact Or.inl rfl

theorem stats_fallback_witness :
    sampleBare.completed = true ∧ sampleBare.stars = none ∧
    (∀ q ∈ [sampleQuest "a" 3 true] ++ sampleBare :: [], starsStored q) ∧
    (stats [sampleQuest "a" 3 true, sampleBare]).totalPoints
      = (stats [sampleQuest "a" 3 true]).totalPoints + 10 ∧
    (stats [sampleQuest "a" 3 true, sampleBare]).totalPoints = 40 :=
  ⟨rfl, rfl, sample_fallback_stored,
   (stats_fallback [sampleQuest "a" 3 true] [] sampleBare sample_fallback_stored rfl).1
     (Or.inl rfl),
   by decide⟩

/-! ## Normalizer: variants of a name, idempotence -/

theorem splitOnP_space (a b : JsString) (c : Char) (hc : isWhiteSpace c = true) :
    (a ++ c :: b).splitOnP isWhiteSpace = a.splitOnP isWhiteSpace ++ b.splitOnP isWhiteSpace := by
  induction a with
  | nil => simp [List.splitOnP_cons, hc]
  | cons x a ih =>
    cases hx : isWhiteSpace x with
    | true => simp [List.splitOnP_cons, hx, ih]
    | false =>
      obtain ⟨w, rest, h1, h2⟩ := splitOnP_cons_letter x a hx
      rw [h2]
      simp [List.splitOnP_cons, hx, ih, h1, List.modifyHead]

theorem words_space (a b : JsString) (c : Char) (hc : isWhiteSpace c = true) :
    words (a ++ c :: b) = words a ++ words b := by
  simp [words, splitOnP_space a b c hc]

theorem sameCase_space (lower : CaseData) (hl : CaseTable lower) (c d : Char)
    (h : lower c = lower d) : isWhiteSpace c = isWhiteSpace d := by
  cases hc : isWhiteSpace c <;> cases hd : isWhiteSpace d
  · rfl
  · have h1 := hl.space d hd
    have h2 := (hl.letter c hc).2 d (by rw [h, h1]; exact List.mem_singleton_self d)
    rw [hd] at h2
    exact h2.symm
  · have h1 := hl.space c hc
    have h2 := (hl.letter d hd).2 c (by rw [← h, h1]; exact List.mem_singleton_self c)
    rw [hc] at h2
    exact h2
  · rfl

theorem dropWhile_sameCase (lower : CaseData) (hl : CaseTable lower) (s t : JsString)
    (h : List.Forall₂ (fun c d => lower c = lower d) s t) :
    List.Forall₂ (fun c d => lower c = lower d)
      (s.dropWhile isWhiteSpace) (t.dropWhile isWhiteSpace) := by
  induction h with
  | nil => exact List.Forall₂.nil
  | @cons c d s t hcd hst ih =>
    have hw := sameCase_space lower hl c d hcd
    cases hc : isWhiteSpace c with
    | true =>
      rw [List.dropWhile_cons_of_pos hc, List.dropWhile_cons_of_pos (hw ▸ hc)]
      exact ih
    | false =>
      have hd : isWhiteSpace d = false := hw ▸ hc
      rw [List.dropWhile_cons_of_neg (by simp [hc]), List.dropWhile_cons_of_neg (by simp [hd])]
      exact List.Forall₂.cons hcd hst

theorem trim_sameCase (lower : CaseData) (hl : CaseTable lower) (s t : JsString)
    (h : List.Forall₂ (fun c d => lower c = lower d) s t) :
    List.Forall₂ (fun c d => lower c = lower d) (trim s) (trim t) := by
  unfold trim List.rdropWhile
  rw [List.forall₂_reverse_iff]
  apply dropWhile_sameCase lower hl
  rw [List.forall₂_reverse_iff]
  exact dropWhile_sameCase lower hl s t h

theorem eachChar_sameCase (lower : CaseData) (s t : JsString)
    (h : List.Forall₂ (fun c d => lower c = lower d) s t) :
    eachChar lower.lower s = eachChar lower.lower t := by
  induction h with
  | nil => rfl
  | @cons c d s t hcd _ ih =>
    simp only [eachChar, List.flatMap_cons] at ih ⊢
    have hcd2 : lower.lower c = lower.lower d := hcd
    rw [hcd2, ih]

theorem variant_key (lower : CaseData) (hl : CaseTable lower) (s t : JsString)
    (h : Variant lower s t) : keyEach lower.lower s = keyEach lower.lower t := by
  have hf := hl.spaceSafe
  induction h with
  | caseFold s t hst =>
    unfold keyEach
    rw [eachChar_sameCase lower _ _ (trim_sameCase lower hl s t hst)]
  | leading c s hc =>
    rw [keyEach_words _ hf, keyEach_words _ hf, wordsJoined, wordsJoined,
      words_cons_space c s hc]
  | trailing c s hc =>
    rw [keyEach_words _ hf, keyEach_words _ hf, wordsJoined, wordsJoined]
    simp [words, splitOnP_concat_space s c hc]
  | kind a b c d hc hd =>
    rw [keyEach_words _ hf, keyEach_words _ hf, wordsJoined, wordsJoined,
      words_space a b c hc, words_space a b d hd]
  | longer a b c d hc hd =>
    rw [keyEach_words _ hf, keyEach_words _ hf, wordsJoined, wordsJoined,
      words_space a b c hc, words_space a (d :: b) c hc, words_cons_space d b hd]
  | symm s t _ ih => exact ih.symm
  | trans s t u _ _ ih1 ih2 => exact ih1.trans ih2

/-- C15 fails where toLowerCase is context sensitive: the capitals with a closing capital
sigma and the small letters with a small sigma in its place differ only in the case of
their letters (character by character the same lower case form), yet the closing capital
sigma lowers to the final sigma and the two names get different keys. -/
theorem getNormalizedId_variant_counterexample :
    CaseTable latinGreek ∧
    Variant latinGreek nikosCapitals nikosSmall ∧
    getNormalizedId latinGreek nikosCapitals = "νικος".toList ∧
    getNormalizedId latinGreek nikosSmall = "νικοσ".toList ∧
    getNormalizedId latinGreek nikosCapitals ≠ getNormalizedId latinGreek nikosSmall := by
  refine ⟨latinGreek_caseTable, ?_, by decide, by decide, by decide⟩
  apply Variant.caseFold
  repeat first
    | exact List.Forall₂.nil
    | apply List.Forall₂.cons (by decide)

/-- C15 as amended: the key of super-hunter is the key of " Super Hunter ", and any two raw
names without capital sigma that differ only in letter case, in leading or trailing white
space, and in the length or kind of their white space runs have the same normalized key,
hence address the same profile record and the same quest collection. -/
theorem getNormalizedId_variant (lower : CaseData) (hl : CaseTable lower)
    (s t : JsString) (a : App) (h : Variant lower s t) (hs : 'Σ' ∉ s) (ht : 'Σ' ∉ t) :
    getNormalizedId asciiLower "super-hunter".toList
      = getNormalizedId asciiLower " Super Hunter ".toList ∧
    getNormalizedId lower s = getNormalizedId lower t ∧
    a.store.profile (getNormalizedId lower s) = a.store.profile (getNormalizedId lower t) ∧
    a.store.tasks (getNormalizedId lower s) = a.store.tasks (getNormalizedId lower t) := by
  have hkey : getNormalizedId lower s = getNormalizedId lower t := by
    rw [normalizedId_sigmaFree lower s hs, normalizedId_sigmaFree lower t ht]
    exact variant_key lower hl s t h
  refine ⟨by decide, hkey, ?_, ?_⟩ <;> rw [hkey]

theorem sample_variant :
    Variant asciiLower " Super Hunter ".toList "super \t HUNTER".toList := by
  apply Variant.trans _ "Super Hunter ".toList _ (Variant.leading ' ' _ (by decide))
  apply Variant.trans _ "Super Hunter".toList _
    (Variant.trailing ' ' "Super Hunter".toList (by decide))
  apply Variant.trans _ "super HUNTER".toList _
  · apply Variant.caseFold
    repeat first
      | exact List.Forall₂.nil
      | apply List.Forall₂.cons (by decide)
  apply Variant.trans _ "super \tHUNTER".toList _
    (Variant.longer "super".toList "HUNTER".toList ' ' '\t' (by decide) (by decide))
  exact Variant.longer "super ".toList "HUNTER".toList '\t' ' ' (by decide) (by decide)

theorem getNormalizedId_variant_witness :
    CaseTable asciiLower ∧
    Variant asciiLower " Super Hunter ".toList "super \t HUNTER".toList ∧
    getNormalizedId asciiLower " Super Hunter ".toList
      = getNormalizedId asciiLower "super \t HUNTER".toList ∧
    getNormalizedId asciiLower "super \t HUNTER".toList = "super-hunter".toList :=
  ⟨asciiLower_caseTable, sample_variant,
   (getNormalizedId_variant asciiLower asciiLower_caseTable " Super Hunter ".toList
      "super \t HUNTER".toList App.init sample_variant (by decide) (by decide)).2.1,
   by decide⟩

theorem replaceSpaceRuns_mem (b : Bool) (x : JsString) :
    ∀ d ∈ replaceSpaceRuns b x, d = '-' ∨ (d ∈ x ∧ isWhiteSpace d = false) := by
  induction x generalizing b with
  | nil => intro d hd; simp [replaceSpaceRuns] at hd
  | cons c cs ih =>
    intro d hd
    cases hc : isWhiteSpace c with
    | true =>
      cases b with
      | true =>
        simp only [replaceSpaceRuns, hc, if_true] at hd
        rcases ih true d hd with h | ⟨h1, h2⟩
        · exact Or.inl h
        · exact Or.inr ⟨List.mem_cons_of_mem _ h1, h2⟩
      | false =>
        simp only [replaceSpaceRuns, hc, if_true, Bool.false_eq_true, if_false,
          List.mem_cons] at hd
        rcases hd with h | hd
        · exact Or.inl h
        · rcases ih true d hd with h | ⟨h1, h2⟩
          · exact Or.inl h
          · exact Or.inr ⟨List.mem_cons_of_mem _ h1, h2⟩
    | false =>
      simp only [replaceSpaceRuns, hc, Bool.false_eq_true, if_false, List.mem_cons] at hd
      rcases hd with h | hd
      · exact Or.inr ⟨by rw [h]; exact List.mem_cons_self _ _, by rw [h]; exact hc⟩
      · rcases ih false d hd with h | ⟨h1, h2⟩
        · exact Or.inl h
        · exact Or.inr ⟨List.mem_cons_of_mem _ h1, h2⟩

theorem toLowerCaseFrom_mem (U : CaseData) (before s : List Char) :
    ∀ d ∈ toLowerCaseFrom U before s, d = 'ς' ∨ ∃ c, d ∈ U c := by
  induction s generalizing before with
  | nil => intro d hd; simp [toLowerCaseFrom] at hd
  | cons c cs ih =>
    intro d hd
    simp only [toLowerCaseFrom, List.mem_append] at hd
    rcases hd with hd | hd
    · unfold lowerAt at hd
      split at hd
      · exact Or.inl (List.mem_singleton.mp hd)
      · exact Or.inr ⟨c, hd⟩
    · exact ih (c :: before) d hd

theorem lower_finalSigma (U : CaseData) : U 'ς' = ['ς'] := by
  show CaseData.lower U 'ς' = ['ς']
  unfold CaseData.lower
  rw [if_neg (by decide), if_neg (by decide), if_pos rfl]

theorem lower_capitalSigma (U : CaseData) : U 'Σ' = ['σ'] := by
  show CaseData.lower U 'Σ' = ['σ']
  unfold CaseData.lower
  rw [if_pos rfl]

theorem key_chars (lower : CaseData) (hs : CaseStable lower) (s : JsString) :
    ∀ d ∈ getNormalizedId lower s,
      (isWhiteSpace d = false ∧ lower d = [d]) ∧ d ≠ 'Σ' := by
  have hcap : ∀ d : Char, lower d = [d] → d ≠ 'Σ' := by
    intro d hd e
    rw [e, lower_capitalSigma] at hd
    revert hd
    decide
  intro d hd
  rcases replaceSpaceRuns_mem false _ d hd with h | ⟨h1, h2⟩
  · rw [h]
    exact ⟨⟨by decide, hs.hyphen⟩, by decide⟩
  · rcases toLowerCaseFrom_mem lower [] _ d h1 with h3 | ⟨c, hc⟩
    · rw [h3]
      exact ⟨⟨by decide, lower_finalSigma lower⟩, by decide⟩
    · have hfix := hs.fixed c d hc
      exact ⟨⟨h2, hfix⟩, hcap d hfix⟩

theorem trim_of_letters (k : JsString) (h : ∀ d ∈ k, isWhiteSpace d = false) : trim k = k := by
  have h1 : k.dropWhile isWhiteSpace = k := by
    cases k with
    | nil => rfl
    | cons c cs =>
      exact List.dropWhile_cons_of_neg (by simp [h c (List.mem_cons_self _ _)])
  rw [trim, h1, List.rdropWhile_eq_self_iff]
  intro hl
  simp [h _ (List.getLast_mem hl)]

theorem eachChar_of_fixed (f : Char → List Char) (k : JsString)
    (h : ∀ d ∈ k, f d = [d]) : eachChar f k = k := by
  induction k with
  | nil => rfl
  | cons c cs ih =>
    simp only [eachChar, List.flatMap_cons] at ih ⊢
    rw [h c (List.mem_cons_self _ _), ih (fun d hd => h d (List.mem_cons_of_mem _ hd))]
    rfl

theorem toLower_toLower (c : Char) : c.toLower.toLower = c.toLower := by
  by_cases h : c.toNat ≥ 65 ∧ c.toNat ≤ 90
  · obtain ⟨h1, h2⟩ := h
    have : c.toLower = Char.ofNat (c.toNat + 32) := by simp [Char.toLower, h1, h2]
    rw [this]
    generalize c.toNat = n at h1 h2
    interval_cases n <;> decide
  · have : c.toLower = c := by simp only [Char.toLower, h, if_false]
    rw [this, this]

theorem asciiLower_fixed (c : Char) (hne : c ≠ 'Σ') :
    asciiLower c.toLower = [c.toLower] := by
  by_cases h : c.toNat ≥ 65 ∧ c.toNat ≤ 90
  · obtain ⟨h1, h2⟩ := h
    have : c.toLower = Char.ofNat (c.toNat + 32) := by simp [Char.toLower, h1, h2]
    rw [this]
    generalize c.toNat = n at h1 h2
    interval_cases n <;> decide
  · have hc : c.toLower = c := by simp only [Char.toLower, h, if_false]
    rw [hc]
    show CaseData.lower asciiLower c = [c]
    unfold CaseData.lower
    split
    · next e => exact absurd e hne
    · split
      · next e => rw [e]
      · split
        · next e => rw [e]
        · show [c.toLower] = [c]
          rw [hc]

theorem asciiLower_caseStable : CaseStable asciiLower := by
  constructor
  · intro c d hd
    have hd2 : d ∈ CaseData.lower asciiLower c := hd
    unfold CaseData.lower at hd2
    split at hd2
    · rw [List.mem_singleton.mp hd2]; decide
    · split at hd2
      · rw [List.mem_singleton.mp hd2]; decide
      · split at hd2
        · rw [List.mem_singleton.mp hd2]; decide
        · next h1 _ _ =>
          have hd3 : d = c.toLower := by simpa [asciiLower] using hd2
          rw [hd3]
          exact asciiLower_fixed c h1
  · decide

/-- C18: getNormalizedId is idempotent: normalizing a key returns the key, every key being
a fixed point made of characters that are not white space and are their own lower case form
(no upper case letter), so typing the key itself at login resolves to the same account. -/
theorem getNormalizedId_idempotent (lower : CaseData) (hs : CaseStable lower)
    (s : JsString) :
    getNormalizedId lower (getNormalizedId lower s) = getNormalizedId lower s ∧
    (∀ d ∈ getNormalizedId lower s, isWhiteSpace d = false ∧ lower d = [d]) ∧
    trim (getNormalizedId lower s) = getNormalizedId lower s ∧
    toLowerCase lower (getNormalizedId lower s) = getNormalizedId lower s := by
  have hall := key_chars lower hs s
  have hch : ∀ d ∈ getNormalizedId lower s, isWhiteSpace d = false ∧ lower d = [d] :=
    fun d hd => (hall d hd).1
  have hfree : 'Σ' ∉ getNormalizedId lower s := fun e => (hall _ e).2 rfl
  have htrim := trim_of_letters _ (fun d hd => (hch d hd).1)
  have hlow : toLowerCase lower (getNormalizedId lower s) = getNormalizedId lower s := by
    rw [toLowerCase_sigmaFree lower _ hfree]
    exact eachChar_of_fixed _ _ (fun d hd => (hch d hd).2)
  refine ⟨?_, hch, htrim, hlow⟩
  have hscan := replaceSpaceRuns_letters (getNormalizedId lower s) []
    (fun d hd => (hch d hd).1)
  simp only [List.append_nil, replaceSpaceRuns] at hscan
  show replaceSpaceRuns false (toLowerCase lower (trim (getNormalizedId lower s)))
    = getNormalizedId lower s
  rw [htrim, hlow, hscan]

theorem getNormalizedId_idempotent_witness :
    CaseStable asciiLower ∧
    getNormalizedId asciiLower " Super Hunter ".toList = "super-hunter".toList ∧
    getNormalizedId asciiLower (getNormalizedId asciiLower " Super Hunter ".toList)
      = getNormalizedId asciiLower " Super Hunter ".toList ∧
    getNormalizedId asciiLower "super-hunter".toList = "super-hunter".toList :=
  ⟨asciiLower_caseStable, by decide,
   (getNormalizedId_idempotent asciiLower asciiLower_caseStable " Super Hunter ".toList).1,
   by decide⟩
